import Mathlib

/-!
Command interpreter (`configuration/command.cpp`).

A shallow embedding of the command interpreter of the firmware and a set of theorems about it.

Conventions of the embedding.

* A `char` buffer is a `List Char`.  The list holds the bytes of the buffer in order and is
  followed by a zero byte: reading at or past the end of the list yields the terminator.  The
  C string held by a buffer is therefore the run of bytes before its first zero byte (`cstr`).
* A pointer into a buffer is an offset (`Nat`) into it.
* `size_t` and `uint32_t` are 32 bits wide on the target (STM32L152); arithmetic that the source
  does in these types is reduced modulo `2 ^ 32`.
* `pvPortMalloc` belongs to the kernel; it enters as a function telling, for a request size,
  whether the request is granted.  The scratch array of token pointers is a list of offsets; its
  size in bytes appears only as the request made to the allocator.
* A handler other than the built-in one is a function of the argument strings, the output
  buffer and its length.
-/

namespace Command

/-! ## Constants and machine types -/

/-- The terminating zero byte. -/
def NUL : Char := Char.ofNat 0

/-- Number of values of `size_t` and of `uint32_t` on the target. -/
def SIZE_MOD : Nat := 2 ^ 32

/-- Result of `sizeof (char*)` on the target. -/
def SIZEOF_POINTER : Nat := 4

/-- Constant `COMMAND_ARGUMENT_LENGTH` of `config.h`. -/
def COMMAND_ARGUMENT_LENGTH : Nat := 32

/-- Values of `enum Error` used by the interpreter; every other enumerator is `other`. -/
inductive Error where
  | ERROR_NONE
  | ERROR_BUFFER_OVERFLOW
  | ERROR_COMMAND_NOT_FOUND
  | ERROR_FreeRTOS_errCOULD_NOT_ALLOCATE_REQUIRED_MEMORY
  | other (code : Nat)
  deriving DecidableEq

/-! ## Buffers and the C library -/

/-- Byte at offset `i`; the terminator past the end of the list. -/
def peek (mem : List Char) (i : Nat) : Char := mem.getD i NUL

/-- Store of one byte at offset `i`. -/
def poke (mem : List Char) (i : Nat) (c : Char) : List Char :=
  mem.take i ++ c :: mem.drop (i + 1)

/-- The C string held by a buffer: its bytes before the first zero byte. -/
def cstr (mem : List Char) : List Char := mem.takeWhile (fun c => c != NUL)

/-- The C string starting at offset `p` of a buffer. -/
def cstrAt (mem : List Char) (p : Nat) : List Char := cstr (mem.drop p)

/-- Library function `strlen`. -/
def strlen (s : List Char) : Nat := (cstr s).length

/-- Library function `strncmp`: compares at most `n` bytes, stopping after a common terminator.
Only the sign of the result is specified by the C standard. -/
def strncmp (s1 s2 : List Char) : Nat → Int
  | 0 => 0
  | n + 1 =>
    if peek s1 0 ≠ peek s2 0 then (if peek s1 0 < peek s2 0 then -1 else 1)
    else if peek s1 0 = NUL then 0
    else strncmp (s1.drop 1) (s2.drop 1) n

/-- Library function `memcpy` of `n` bytes of `src` to offset `off` of `dst`. -/
def memcpy (dst : List Char) (off : Nat) (src : List Char) (n : Nat) : List Char :=
  dst.take off ++ src.take n ++ dst.drop (off + n)

/-- Membership of a byte in the set given by the C string `set`. -/
def inSet (set : List Char) (c : Char) : Bool := c != NUL && (cstr set).elem c

/-- Library function `strspn` at offset `s`. -/
def strspn (mem : List Char) (s : Nat) (accept : List Char) : Nat :=
  ((mem.drop s).takeWhile (inSet accept)).length

/-- Library function `strcspn` at offset `s`. -/
def strcspn (mem : List Char) (s : Nat) (reject : List Char) : Nat :=
  ((mem.drop s).takeWhile (fun c => c != NUL && !inSet reject c)).length

/-- Library function `strtok_r`.  `source` is the first argument (`none` for `NULL`), `lasts` the
value of the save pointer.  Returns the buffer, the token (`none` for `NULL`) and the new save
pointer. -/
def strtok_r (mem : List Char) (source : Option Nat) (delim : List Char) (lasts : Nat) :
    List Char × Option Nat × Nat :=
  let s := source.getD lasts
  let s1 := s + strspn mem s delim
  if peek mem s1 = NUL then (mem, none, s1)
  else
    let e := s1 + strcspn mem s1 delim
    if peek mem e = NUL then (mem, some s1, e)
    else (poke mem e NUL, some s1, e + 1)

/-! ## Data model -/

/-- Handler of a command.  The built-in help handler reads the registry; any other handler is a
function of the argument strings, the output buffer and its length, returning a result code and
the output buffer. -/
inductive Callback where
  | helpHandler
  | user (f : List (List Char) → List Char → Nat → Error × List Char)

/-- Mirror of `struct CommandDefinition`. -/
structure CommandDefinition where
  command : List Char
  arguments_count_max : Nat
  callback : Callback
  help_string : List Char

/-- Mirror of `struct CommandArgumentPair`; `none` is `NULL`. -/
structure CommandArgumentPair where
  key : Option (List Char)
  value : Option (List Char)
  deriving DecidableEq

/-- The built-in definition `_helpCommandDefinition`. -/
def _helpCommandDefinition : CommandDefinition :=
  { command := "help".toList
    arguments_count_max := 0
    callback := Callback.helpHandler
    help_string := "help: lists all available commands\r\n".toList }

/-- Initial value of the registry `_commands`. -/
def _commands : List CommandDefinition := [_helpCommandDefinition]

/-- Function `commandRegister`: `push_back` on the registry. -/
def commandRegister (commands : List CommandDefinition) (definition : CommandDefinition) :
    List CommandDefinition :=
  commands ++ [definition]

/-! ## The help handler -/

/-- Loop of `_helpHandler` over the registry.  `written` is the distance of the moving pointer
`output_buffer` from the start of the buffer.  Returns the result code, the buffer and the final
distance. -/
def _helpHandlerLoop (output_buffer_length : Nat) :
    List CommandDefinition → List Char → Nat → Error × List Char × Nat
  | [], output_buffer, written => (Error.ERROR_NONE, poke output_buffer written NUL, written)
  | definition :: rest, output_buffer, written =>
    let string_length := strlen definition.help_string
    if (output_buffer_length + SIZE_MOD - 1) % SIZE_MOD < string_length then
      (Error.ERROR_BUFFER_OVERFLOW, output_buffer, written)
    else
      _helpHandlerLoop output_buffer_length rest
        (memcpy output_buffer written definition.help_string string_length)
        (written + string_length)

/-- Function `_helpHandler`. -/
def _helpHandler (commands : List CommandDefinition) (_arguments : List (List Char))
    (output_buffer : List Char) (output_buffer_length : Nat) : Error × List Char :=
  let r := _helpHandlerLoop output_buffer_length commands output_buffer 0
  (r.1, r.2.1)

/-- Call through the function pointer `definition->callback`. -/
def invoke (commands : List CommandDefinition) (callback : Callback)
    (arguments : List (List Char)) (output_buffer : List Char) (output_buffer_length : Nat) :
    Error × List Char :=
  match callback with
  | Callback.helpHandler => _helpHandler commands arguments output_buffer output_buffer_length
  | Callback.user f => f arguments output_buffer output_buffer_length

/-! ## The dispatcher -/

/-- The delimiter string of the tokenizer. -/
def DELIMITERS : List Char := " \t\r\n".toList

/-- The `while (arguments_count < arguments_count_max)` loop of `commandProcessInput`; the first
argument is `arguments_count_max - arguments_count`.  `arguments_array` holds the pointers stored
so far.  Returns the input buffer and the pointers. -/
def tokenizeLoop : Nat → List Char → Option Nat → Nat → List Nat → List Char × List Nat
  | 0, input, _, _, arguments_array => (input, arguments_array)
  | n + 1, input, source, lasts, arguments_array =>
    match strtok_r input source DELIMITERS lasts with
    | (input1, none, _) => (input1, arguments_array)
    | (input1, some argument, lasts1) =>
      let input2 :=
        if strlen (input1.drop argument) > COMMAND_ARGUMENT_LENGTH then
          poke input1 (argument + COMMAND_ARGUMENT_LENGTH) NUL
        else input1
      tokenizeLoop n input2 none lasts1 (arguments_array ++ [argument])

/-- What a call of `commandProcessInput` leaves behind. -/
structure Outcome where
  /-- The returned result code. -/
  error : Error
  /-- The input buffer after the call. -/
  input : List Char
  /-- The output buffer after the call. -/
  output_buffer : List Char
  /-- The handler calls made: position of the definition in the registry and the argument
  strings handed over. -/
  invoked : List (Nat × List (List Char))
  /-- The sizes requested from `pvPortMalloc`. -/
  requested : List Nat
  /-- The number of calls of `vPortFree`. -/
  released : Nat

/-- The body of `commandProcessInput` for a definition whose name matched: scratch allocation,
tokenization, handler call, release.  `index` is the position of the definition in the
registry. -/
def matched (pvPortMalloc : Nat → Bool) (commands : List CommandDefinition)
    (input output_buffer : List Char) (output_buffer_length : Nat)
    (definition : CommandDefinition) (index : Nat) : Outcome :=
  let arguments_count_max := (definition.arguments_count_max + 1) % SIZE_MOD
  let size := (SIZEOF_POINTER * arguments_count_max) % SIZE_MOD
  if pvPortMalloc size = false then
    { error := Error.ERROR_FreeRTOS_errCOULD_NOT_ALLOCATE_REQUIRED_MEMORY, input := input,
      output_buffer := output_buffer, invoked := [], requested := [size], released := 0 }
  else
    let t := tokenizeLoop arguments_count_max input (some 0) 0 []
    let arguments := t.2.map (cstrAt t.1)
    let r := invoke commands definition.callback arguments output_buffer output_buffer_length
    { error := r.1, input := t.1, output_buffer := r.2,
      invoked := [(index, arguments)], requested := [size], released := 1 }

/-- The `for` loop of `commandProcessInput` over the definitions from position `index` on.  The
loop is left at the first definition whose name matches. -/
def processLoop (pvPortMalloc : Nat → Bool) (commands : List CommandDefinition)
    (input output_buffer : List Char) (output_buffer_length : Nat) :
    List CommandDefinition → Nat → Outcome
  | [], _ =>
    { error := Error.ERROR_COMMAND_NOT_FOUND, input := input, output_buffer := output_buffer,
      invoked := [], requested := [], released := 0 }
  | definition :: rest, index =>
    let command_length := strlen definition.command
    if strncmp definition.command input command_length = 0 then
      matched pvPortMalloc commands input output_buffer output_buffer_length definition index
    else processLoop pvPortMalloc commands input output_buffer output_buffer_length rest (index + 1)

/-- Function `commandProcessInput`. -/
def commandProcessInput (pvPortMalloc : Nat → Bool) (commands : List CommandDefinition)
    (input output_buffer : List Char) (output_buffer_length : Nat) : Outcome :=
  processLoop pvPortMalloc commands input (poke output_buffer 0 NUL) output_buffer_length
    commands 0

/-! ## Key/value pairs -/

/-- The test `argument[0] == '-' && argument[1] == '-' && argument[2] != 0`. -/
def isKeyArgument (argument : List Char) : Bool :=
  peek argument 0 == '-' && peek argument 1 == '-' && peek argument 2 != NUL

/-- Slot `j` of the pairs array; a slot never written holds null pointers. -/
def pairAt (pairs : List CommandArgumentPair) (j : Nat) : CommandArgumentPair :=
  pairs.getD j { key := none, value := none }

/-- Store into slot `j` of the pairs array. -/
def setPair (pairs : List CommandArgumentPair) (j : Nat) (p : CommandArgumentPair) :
    List CommandArgumentPair :=
  pairs.take j ++ p :: pairs.drop (j + 1)

/-- What a call of `commandArgumentsToPairs` leaves behind. -/
structure PairsOutcome where
  /-- The returned count. -/
  found : Nat
  /-- The pairs array after the call. -/
  pairs : List CommandArgumentPair
  /-- The slots of the pairs array that were read or written, in order. -/
  touched : List Nat
  deriving DecidableEq

/-- The `while` loop of `commandArgumentsToPairs` over the arguments not yet consumed. -/
def pairsLoop (pairs_length : Nat) :
    List (List Char) → List CommandArgumentPair → Nat → Nat → List Nat → PairsOutcome
  | [], pairs, _, found, touched => { found := found, pairs := pairs, touched := touched }
  | argument :: rest, pairs, j, found, touched =>
    if j < pairs_length then
      if isKeyArgument argument then
        let j1 := if (pairAt pairs j).key ≠ none then j + 1 else j
        pairsLoop pairs_length rest
          (setPair pairs j1 { key := some (argument.drop 2), value := none })
          j1 (found + 1) (touched ++ [j, j1])
      else
        pairsLoop pairs_length rest
          (setPair pairs j { key := (pairAt pairs j).key, value := some argument })
          j found (touched ++ [j])
    else { found := found, pairs := pairs, touched := touched }

/-- Function `commandArgumentsToPairs`.  The pointers stored in the pairs are the buffers they
point to. -/
def commandArgumentsToPairs (arguments_array : List (List Char)) (arguments_count : Nat)
    (pairs : List CommandArgumentPair) (pairs_length : Nat) : PairsOutcome :=
  pairsLoop pairs_length (arguments_array.take arguments_count)
    (setPair pairs 0 { key := none, value := (pairAt pairs 0).value }) 0 0 [0]

/-! ## Notions of the specification -/

/-- The name of a definition is a literal prefix of the input line. -/
def NameMatches (definition : CommandDefinition) (input : List Char) : Prop :=
  cstr definition.command <+: cstr input

instance (definition : CommandDefinition) (input : List Char) :
    Decidable (NameMatches definition input) := by
  unfold NameMatches; infer_instance

/-- Definition `d` stands at position `i` of the registry and is the first one, in registration
order, whose name is a prefix of the input line. -/
def FirstMatch (commands : List CommandDefinition) (input : List Char) (i : Nat)
    (d : CommandDefinition) : Prop :=
  commands[i]? = some d ∧ NameMatches d input ∧ ∀ e ∈ commands.take i, ¬ NameMatches e input

/-- The four delimiter characters: space, tab, carriage return, line feed. -/
def isDelimiter (c : Char) : Bool := c == ' ' || c == '\t' || c == '\r' || c == '\n'

/-- The words of a line: its maximal runs of characters other than delimiters, in order of
appearance. -/
def words (line : List Char) : List (List Char) :=
  (line.splitOnP isDelimiter).filter (fun w => !w.isEmpty)

/-- The token sequence the specification promises to a handler whose definition declares at most
`m` arguments: the first `m + 1` words (all of them when there are fewer), each cut to its first
`COMMAND_ARGUMENT_LENGTH` characters. -/
def expectedTokens (m : Nat) (line : List Char) : List (List Char) :=
  ((words line).take (min (m + 1) (words line).length)).map (List.take COMMAND_ARGUMENT_LENGTH)

/-- A key token: two hyphens followed by at least one more character. -/
def isKeyToken (t : List Char) : Bool := "--".toList.isPrefixOf t && decide (2 < t.length)

/-- The pairs the specification promises for a token sequence: one per key token, holding the key
token without its two hyphens and the last of the tokens lying between this key token and the
next one (or the end), if any. -/
def expectedPairs : List (List Char) → List CommandArgumentPair
  | [] => []
  | t :: ts =>
    if isKeyToken t then
      { key := some (t.drop 2), value := (ts.takeWhile (fun u => !isKeyToken u)).getLast? }
        :: expectedPairs ts
    else expectedPairs ts

/-- The strings a pair points to. -/
def pairStrings (p : CommandArgumentPair) : CommandArgumentPair :=
  { key := p.key.map cstr, value := p.value.map cstr }

/-- The help texts of a registry, in registration order. -/
def helpTexts (commands : List CommandDefinition) : List (List Char) :=
  commands.map (fun d => cstr d.help_string)

/-- Total length of the help texts of a registry. -/
def helpLength (commands : List CommandDefinition) : Nat := (helpTexts commands).flatten.length

/-! ## Auxiliary notions used in the statements and proofs -/

/-- The outcome of `commandProcessInput` when the loop runs off the end of the registry. -/
def notFound (input output_buffer : List Char) : Outcome :=
  { error := Error.ERROR_COMMAND_NOT_FOUND, input := input, output_buffer := output_buffer,
    invoked := [], requested := [], released := 0 }

/-- A character of a word: neither the terminator nor a delimiter. -/
def isWordChar (c : Char) : Bool := c != NUL && !isDelimiter c

/-- The three shapes of the part of a buffer not yet tokenized: no word left; a last word running
up to the terminator; a word followed by a delimiter. -/
inductive Shape (rest : List Char) : Prop where
  | none (skip r1 : List Char) (h : rest = skip ++ r1)
      (hs : ∀ c ∈ skip, isDelimiter c = true) (h1 : r1.headD NUL = NUL)
  | last (skip tok r2 : List Char) (h : rest = skip ++ (tok ++ r2))
      (hs : ∀ c ∈ skip, isDelimiter c = true) (hne : tok ≠ [])
      (ht : ∀ c ∈ tok, isWordChar c = true) (h2 : r2.headD NUL = NUL)
  | more (skip tok : List Char) (d : Char) (r2 : List Char) (h : rest = skip ++ (tok ++ d :: r2))
      (hs : ∀ c ∈ skip, isDelimiter c = true) (hne : tok ≠ [])
      (ht : ∀ c ∈ tok, isWordChar c = true) (hd : isDelimiter d = true)

/-- A word cut to `COMMAND_ARGUMENT_LENGTH` characters in place: the store of a terminator at
offset `COMMAND_ARGUMENT_LENGTH` of a longer word. -/
def cutInPlace (tok : List Char) : List Char :=
  if tok.length > COMMAND_ARGUMENT_LENGTH then
    tok.take COMMAND_ARGUMENT_LENGTH ++ NUL :: tok.drop (COMMAND_ARGUMENT_LENGTH + 1)
  else tok

/-- The value of the local `arguments_count_max` for a matched definition. -/
def scratchCount (d : CommandDefinition) : Nat := (d.arguments_count_max + 1) % SIZE_MOD

/-- The size requested from `pvPortMalloc` for a matched definition. -/
def scratchSize (d : CommandDefinition) : Nat := (SIZEOF_POINTER * scratchCount d) % SIZE_MOD

/-- The first `scratchCount d` words of the line held by the input buffer, each cut to
`COMMAND_ARGUMENT_LENGTH` characters. -/
def handedTokens (d : CommandDefinition) (input : List Char) : List (List Char) :=
  ((words (cstr input)).take (scratchCount d)).map (List.take COMMAND_ARGUMENT_LENGTH)

/-- A sample definition for instantiating the theorems: the command `led` with at most two
arguments, whose handler leaves the output buffer alone and returns the handler-specific
code 7. -/
def ledCommandDefinition : CommandDefinition :=
  { command := "led".toList
    arguments_count_max := 2
    callback := Callback.user (fun _ output_buffer _ => (Error.other 7, output_buffer))
    help_string := "led: on/off\r\n".toList }

/-- The registry after registering the sample definition. -/
def sampleCommands : List CommandDefinition := commandRegister _commands ledCommandDefinition

/-- A sample input line for the sample definition; its second word has 40 characters. -/
def sampleInput : List Char := "led 0123456789012345678901234567890123456789\ton\r\n".toList

/-- The tokens of the sample input line. -/
def sampleTokens : List (List Char) :=
  ["led".toList, "01234567890123456789012345678901".toList, "on".toList]

/-- The pairs of a token sequence as the loop builds them, with the pointers as stored. -/
def expectedRaw : List (List Char) → List CommandArgumentPair
  | [] => []
  | t :: ts =>
    if isKeyArgument t then
      { key := some (t.drop 2), value := (ts.takeWhile (fun u => !isKeyArgument u)).getLast? }
        :: expectedRaw ts
    else expectedRaw ts

/-- The last element of a list, or `v` when the list is empty. -/
def lastOr (l : List (List Char)) (v : Option (List Char)) : Option (List Char) :=
  match l.getLast? with
  | some x => some x
  | none => v

/-- The count of outstanding blocks of the allocator after a call, given the count before it:
every granted request adds a block, every call of `vPortFree` removes one. -/
def outstandingAfter (pvPortMalloc : Nat → Bool) (before : Nat) (r : Outcome) : Int :=
  (before : Int) + ((r.requested.filter pvPortMalloc).length : Int) - (r.released : Int)

/-- A sample definition with a help text of 40 bytes. -/
def bigCommandDefinition : CommandDefinition :=
  { command := "big".toList
    arguments_count_max := 0
    callback := Callback.user (fun _ output_buffer _ => (Error.ERROR_NONE, output_buffer))
    help_string := List.replicate 40 'b' }

/-- A sample definition declaring the largest argument count a `uint32_t` holds; its handler
returns the number of tokens it received as a handler-specific code. -/
def wideCommandDefinition : CommandDefinition :=
  { command := "w".toList
    arguments_count_max := 4294967295
    callback := Callback.user (fun arguments output_buffer _ =>
      (Error.other arguments.length, output_buffer))
    help_string := "w: wide\r\n".toList }

/-- A sample definition whose handler stores its tokens, one after the other, into the output
buffer and returns the standard code `ERROR_BUFFER_OVERFLOW`. -/
def echoCommandDefinition : CommandDefinition :=
  { command := "echo".toList
    arguments_count_max := 2
    callback := Callback.user (fun arguments _ _ =>
      (Error.ERROR_BUFFER_OVERFLOW, arguments.flatten))
    help_string := "echo: repeats\r\n".toList }

/-- A sample definition whose name begins with the name of the built-in command. -/
def helpmeCommandDefinition : CommandDefinition :=
  { command := "helpme".toList
    arguments_count_max := 1
    callback := Callback.user (fun _ output_buffer _ => (Error.other 9, output_buffer))
    help_string := "helpme: asks\r\n".toList }

/-! ## Lemmas on the C library model -/

theorem cstr_nil : cstr [] = [] := rfl

theorem cstr_cons (c : Char) (s : List Char) :
    cstr (c :: s) = if c = NUL then [] else c :: cstr s := by
  unfold cstr
  by_cases h : c = NUL <;> simp [List.takeWhile_cons, h]

theorem strncmp_eq_zero_iff (s1 s2 : List Char) :
    strncmp s1 s2 (strlen s1) = 0 ↔ cstr s1 <+: cstr s2 := by
  induction s1 generalizing s2 with
  | nil => simp [strlen, cstr_nil, strncmp]
  | cons a as ih =>
    by_cases ha : a = NUL
    · simp [strlen, cstr_cons, ha, strncmp]
    · cases s2 with
      | nil =>
        simp [strlen, cstr_cons, ha, strncmp, peek, cstr_nil]
        split <;> simp
      | cons b bs =>
        by_cases hab : a = b
        · subst hab
          have := ih bs
          simp [strlen, cstr_cons, ha, strncmp, peek, List.cons_prefix_cons] at this ⊢
          exact this
        · have hne : ¬ (a :: cstr as <+: cstr (b :: bs)) := by
            rw [cstr_cons]
            split
            · simp
            · simp [List.cons_prefix_cons, hab]
          rw [cstr_cons] at hne
          simp [strlen, cstr_cons, ha, strncmp, peek, hab]
          split <;> simp [hne]

/-! ## Lemmas on the dispatcher -/

theorem processLoop_none (pvPortMalloc : Nat → Bool) (commands : List CommandDefinition)
    (input output_buffer : List Char) (n : Nat) (defs : List CommandDefinition) (index : Nat)
    (h : ∀ d ∈ defs, ¬ NameMatches d input) :
    processLoop pvPortMalloc commands input output_buffer n defs index
      = notFound input output_buffer := by
  induction defs generalizing index with
  | nil => rfl
  | cons d rest ih =>
    have hd : ¬ strncmp d.command input (strlen d.command) = 0 := by
      rw [strncmp_eq_zero_iff]; exact h d (List.mem_cons_self _ _)
    simp only [processLoop, hd, if_false]
    exact ih (index + 1) (fun e he => h e (List.mem_cons_of_mem _ he))

theorem processLoop_first (pvPortMalloc : Nat → Bool) (commands : List CommandDefinition)
    (input output_buffer : List Char) (n : Nat) (pre : List CommandDefinition)
    (d : CommandDefinition) (post : List CommandDefinition) (index : Nat)
    (hpre : ∀ e ∈ pre, ¬ NameMatches e input) (hd : NameMatches d input) :
    processLoop pvPortMalloc commands input output_buffer n (pre ++ d :: post) index
      = matched pvPortMalloc commands input output_buffer n d (index + pre.length) := by
  induction pre generalizing index with
  | nil =>
    have h0 : strncmp d.command input (strlen d.command) = 0 := by
      rw [strncmp_eq_zero_iff]; exact hd
    simp [processLoop, h0]
  | cons e rest ih =>
    have he : ¬ strncmp e.command input (strlen e.command) = 0 := by
      rw [strncmp_eq_zero_iff]; exact hpre e (List.mem_cons_self _ _)
    have key := ih (index + 1) (fun x hx => hpre x (List.mem_cons_of_mem _ hx))
    simp only [List.cons_append, processLoop, he, if_false]
    rw [List.length_cons, Nat.add_comm rest.length 1, ← Nat.add_assoc]
    exact key

theorem firstMatch_split (commands : List CommandDefinition) (input : List Char) (i : Nat)
    (d : CommandDefinition) (h : FirstMatch commands input i d) :
    ∃ post, commands = commands.take i ++ d :: post ∧ (commands.take i).length = i := by
  obtain ⟨hi, _, _⟩ := h
  have hlen : i < commands.length := by
    by_contra hc
    rw [List.getElem?_eq_none (by omega)] at hi
    exact Option.noConfusion hi
  have hget : commands[i] = d := by
    rw [List.getElem?_eq_getElem hlen] at hi
    exact Option.some.inj hi
  refine ⟨commands.drop (i + 1), ?_, ?_⟩
  · rw [← hget]
    exact (List.take_append_drop i commands).symm.trans (by rw [List.drop_eq_getElem_cons hlen])
  · simp [List.length_take]; omega

theorem split_firstMatch (pre : List CommandDefinition) (d : CommandDefinition)
    (post : List CommandDefinition) (input : List Char)
    (hpre : ∀ e ∈ pre, ¬ NameMatches e input) (hd : NameMatches d input) :
    FirstMatch (pre ++ d :: post) input pre.length d := by
  refine ⟨?_, hd, ?_⟩
  · rw [List.getElem?_append_right (Nat.le_refl _)]; simp
  · rw [List.take_left]; exact hpre

theorem firstMatch_or_none (defs : List CommandDefinition) (input : List Char) :
    (∀ d ∈ defs, ¬ NameMatches d input) ∨
      ∃ pre d post, defs = pre ++ d :: post ∧ (∀ e ∈ pre, ¬ NameMatches e input) ∧
        NameMatches d input := by
  induction defs with
  | nil => left; simp
  | cons a rest ih =>
    by_cases ha : NameMatches a input
    · right; exact ⟨[], a, rest, rfl, by simp, ha⟩
    · rcases ih with h | ⟨pre, d, post, rfl, hpre, hd⟩
      · left
        intro e he
        rcases List.mem_cons.1 he with rfl | he
        · exact ha
        · exact h e he
      · right
        refine ⟨a :: pre, d, post, rfl, ?_, hd⟩
        intro e he
        rcases List.mem_cons.1 he with rfl | he
        · exact ha
        · exact hpre e he

/-! ## Lemmas on the tokenizer -/

theorem inSet_DELIMITERS (c : Char) : inSet DELIMITERS c = isDelimiter c := by
  have h : cstr DELIMITERS = [' ', '\t', '\r', '\n'] := by decide
  unfold inSet isDelimiter
  rw [h]
  by_cases h0 : c = NUL
  · subst h0; decide
  · have hne : (c != NUL) = true := by simpa using h0
    rw [hne, Bool.true_and, List.elem_eq_mem]
    by_cases h1 : c = ' ' <;> by_cases h2 : c = '\t' <;> by_cases h3 : c = '\r'
      <;> by_cases h4 : c = '\n' <;> simp [h1, h2, h3, h4]

theorem drop_at (a b : List Char) : (a ++ b).drop a.length = b := List.drop_left a b

theorem peek_zero (b : List Char) : peek b 0 = b.headD NUL := by
  cases b <;> rfl

theorem peek_at (a b : List Char) : peek (a ++ b) a.length = b.headD NUL := by
  rw [← peek_zero]
  unfold peek
  simp [List.getD_eq_getElem?_getD, List.getElem?_append_right]

theorem poke_at (a b : List Char) (c : Char) : poke (a ++ b) a.length c = a ++ c :: b.drop 1 := by
  unfold poke
  simp [List.take_left, List.drop_append]

theorem takeWhile_split (p : Char → Bool) (a b : List Char) (ha : ∀ c ∈ a, p c = true)
    (hb : ∀ c, b.head? = some c → p c = false) : (a ++ b).takeWhile p = a := by
  rw [List.takeWhile_append_of_pos ha]
  cases b with
  | nil => simp
  | cons c cs =>
    have : p c = false := hb c rfl
    simp [List.takeWhile_cons, this]

theorem head?_of_headD {b : List Char} (h : b.headD NUL = NUL) {c : Char}
    (hc : b.head? = some c) : c = NUL := by
  cases b with
  | nil => simp at hc
  | cons x xs =>
    simp at hc h
    rw [← hc, h]

theorem isDelimiter_NUL : isDelimiter NUL = false := by decide

theorem isWordChar_NUL : isWordChar NUL = false := by decide

theorem isWordChar_ne_NUL {c : Char} (h : isWordChar c = true) : c ≠ NUL := by
  rintro rfl
  rw [isWordChar_NUL] at h
  exact Bool.noConfusion h

theorem isWordChar_not_delimiter {c : Char} (h : isWordChar c = true) : isDelimiter c = false := by
  unfold isWordChar at h
  simp at h
  simpa using h.2

theorem isDelimiter_not_wordChar {c : Char} (h : isDelimiter c = true) : isWordChar c = false := by
  unfold isWordChar
  simp [h]

theorem isDelimiter_ne_NUL {c : Char} (h : isDelimiter c = true) : c ≠ NUL := by
  rintro rfl
  rw [isDelimiter_NUL] at h
  exact Bool.noConfusion h

theorem cstr_append (a b : List Char) (ha : ∀ c ∈ a, c ≠ NUL) : cstr (a ++ b) = a ++ cstr b := by
  unfold cstr
  exact List.takeWhile_append_of_pos (fun c hc => by simpa using ha c hc)

theorem cstr_of_headD {b : List Char} (h : b.headD NUL = NUL) : cstr b = [] := by
  cases b with
  | nil => rfl
  | cons x xs =>
    simp at h
    simp [cstr_cons, h]

theorem cstr_word (tok b : List Char) (ht : ∀ c ∈ tok, isWordChar c = true)
    (hb : b.headD NUL = NUL) : cstr (tok ++ b) = tok := by
  rw [cstr_append tok b (fun c hc => isWordChar_ne_NUL (ht c hc)), cstr_of_headD hb]
  simp

theorem strspn_at (pre rest : List Char) :
    strspn (pre ++ rest) pre.length DELIMITERS = (rest.takeWhile isDelimiter).length := by
  unfold strspn
  rw [drop_at]
  have : inSet DELIMITERS = isDelimiter := funext inSet_DELIMITERS
  rw [this]

theorem strcspn_at (pre rest : List Char) :
    strcspn (pre ++ rest) pre.length DELIMITERS = (rest.takeWhile isWordChar).length := by
  unfold strcspn
  rw [drop_at]
  have : (fun c => c != NUL && !inSet DELIMITERS c) = isWordChar := by
    funext c
    rw [inSet_DELIMITERS]
    rfl
  rw [this]

theorem shape_total (rest : List Char) : Shape rest := by
  have hsplit : rest = rest.takeWhile isDelimiter ++ rest.dropWhile isDelimiter :=
    (List.takeWhile_append_dropWhile isDelimiter rest).symm
  have hs : ∀ c ∈ rest.takeWhile isDelimiter, isDelimiter c = true :=
    fun c hc => List.mem_takeWhile_imp hc
  generalize rest.takeWhile isDelimiter = skip at hsplit hs
  have hhead : ∀ c, (rest.dropWhile isDelimiter).head? = some c → isDelimiter c = false := by
    intro c hc
    have := List.head?_dropWhile_not isDelimiter rest
    rw [hc] at this
    exact this
  generalize rest.dropWhile isDelimiter = r1 at hsplit hhead
  cases r1 with
  | nil => exact Shape.none skip [] hsplit hs rfl
  | cons x xs =>
    by_cases hx : x = NUL
    · exact Shape.none skip (x :: xs) hsplit hs (by simpa using hx)
    · have hxd : isDelimiter x = false := hhead x rfl
      have hxw : isWordChar x = true := by
        unfold isWordChar
        simp [hx, hxd]
      have hsplit2 : x :: xs = (x :: xs).takeWhile isWordChar ++ (x :: xs).dropWhile isWordChar :=
        (List.takeWhile_append_dropWhile isWordChar (x :: xs)).symm
      have ht : ∀ c ∈ (x :: xs).takeWhile isWordChar, isWordChar c = true :=
        fun c hc => List.mem_takeWhile_imp hc
      have hne : (x :: xs).takeWhile isWordChar ≠ [] := by
        simp [List.takeWhile_cons, hxw]
      have hhead2 : ∀ c, ((x :: xs).dropWhile isWordChar).head? = some c →
          isWordChar c = false := by
        intro c hc
        have := List.head?_dropWhile_not isWordChar (x :: xs)
        rw [hc] at this
        exact this
      generalize (x :: xs).takeWhile isWordChar = tok at hsplit2 ht hne
      generalize (x :: xs).dropWhile isWordChar = r2 at hsplit2 hhead2
      rw [hsplit2] at hsplit
      cases r2 with
      | nil => exact Shape.last skip tok [] hsplit hs hne ht rfl
      | cons d ds =>
        by_cases hd : d = NUL
        · exact Shape.last skip tok (d :: ds) hsplit hs hne ht (by simpa using hd)
        · have hdw : isWordChar d = false := hhead2 d rfl
          have hdd : isDelimiter d = true := by
            unfold isWordChar at hdw
            simpa [hd] using hdw
          exact Shape.more skip tok d ds hsplit hs hne ht hdd

theorem strtok_r_none (pre skip r1 : List Char) (source : Option Nat) (lasts : Nat)
    (hsrc : source.getD lasts = pre.length) (hs : ∀ c ∈ skip, isDelimiter c = true)
    (h1 : r1.headD NUL = NUL) :
    strtok_r (pre ++ (skip ++ r1)) source DELIMITERS lasts
      = (pre ++ (skip ++ r1), none, pre.length + skip.length) := by
  have hskip : (skip ++ r1).takeWhile isDelimiter = skip :=
    takeWhile_split isDelimiter skip r1 hs
      (fun c hc => by rw [head?_of_headD h1 hc]; exact isDelimiter_NUL)
  have hpeek : peek (pre ++ (skip ++ r1)) (pre.length + skip.length) = NUL := by
    rw [← List.append_assoc, ← List.length_append, peek_at]; exact h1
  simp only [strtok_r, hsrc, strspn_at, hskip, hpeek, if_true]

theorem strtok_r_word (pre skip tok r2 : List Char) (source : Option Nat) (lasts : Nat)
    (hsrc : source.getD lasts = pre.length) (hs : ∀ c ∈ skip, isDelimiter c = true)
    (hne : tok ≠ []) (ht : ∀ c ∈ tok, isWordChar c = true)
    (h2 : ∀ c, r2.head? = some c → isWordChar c = false) :
    strtok_r (pre ++ (skip ++ (tok ++ r2))) source DELIMITERS lasts
      = if r2.headD NUL = NUL then
          (pre ++ (skip ++ (tok ++ r2)), some (pre.length + skip.length),
            pre.length + skip.length + tok.length)
        else
          (pre ++ (skip ++ (tok ++ NUL :: r2.drop 1)), some (pre.length + skip.length),
            pre.length + skip.length + tok.length + 1) := by
  obtain ⟨x, xs, rfl⟩ := List.exists_cons_of_ne_nil hne
  have hx : isWordChar x = true := ht x (List.mem_cons_self _ _)
  have hskip : (skip ++ (x :: xs ++ r2)).takeWhile isDelimiter = skip :=
    takeWhile_split isDelimiter skip _ hs
      (fun c hc => by
        simp at hc
        rw [← hc]; exact isWordChar_not_delimiter hx)
  have hpeek : peek (pre ++ (skip ++ (x :: xs ++ r2))) (pre.length + skip.length) = x := by
    rw [← List.append_assoc, ← List.length_append, peek_at]; rfl
  have hcspn : strcspn (pre ++ (skip ++ (x :: xs ++ r2))) (pre.length + skip.length) DELIMITERS
      = (x :: xs).length := by
    rw [← List.append_assoc, ← List.length_append, strcspn_at,
      takeWhile_split isWordChar (x :: xs) r2 ht h2]
  have hassoc : pre ++ (skip ++ (x :: xs ++ r2)) = (pre ++ (skip ++ (x :: xs))) ++ r2 := by
    simp [List.append_assoc]
  have hlen : pre.length + skip.length + (x :: xs).length = (pre ++ (skip ++ (x :: xs))).length := by
    simp [List.length_append, Nat.add_assoc]
  have hpeek2 : peek (pre ++ (skip ++ (x :: xs ++ r2)))
      (pre.length + skip.length + (x :: xs).length) = r2.headD NUL := by
    rw [hassoc, hlen, peek_at]
  have hpoke : poke (pre ++ (skip ++ (x :: xs ++ r2)))
      (pre.length + skip.length + (x :: xs).length) NUL
      = pre ++ (skip ++ (x :: xs ++ NUL :: r2.drop 1)) := by
    rw [hassoc, hlen, poke_at]
    simp [List.append_assoc]
  simp only [strtok_r, hsrc, strspn_at, hskip, hpeek, isWordChar_ne_NUL hx, if_false, hcspn,
    hpeek2, hpoke]

theorem cutInPlace_length (tok : List Char) : (cutInPlace tok).length = tok.length := by
  unfold cutInPlace
  split
  · simp [List.length_append, List.length_take, List.length_drop]; omega
  · rfl

theorem cstr_cutInPlace (tok b : List Char) (ht : ∀ c ∈ tok, isWordChar c = true)
    (hb : b.headD NUL = NUL) :
    cstr (cutInPlace tok ++ b) = tok.take COMMAND_ARGUMENT_LENGTH := by
  unfold cutInPlace
  split
  · rw [List.append_assoc, cstr_append _ _
      (fun c hc => isWordChar_ne_NUL (ht c (List.mem_of_mem_take hc)))]
    rw [cstr_of_headD (by simp)]
    simp
  · rename_i h
    rw [cstr_word tok b ht hb, List.take_of_length_le (by omega)]

theorem truncate_at (a tok b : List Char) (ht : ∀ c ∈ tok, isWordChar c = true)
    (hb : b.headD NUL = NUL) :
    (if strlen ((a ++ (tok ++ b)).drop a.length) > COMMAND_ARGUMENT_LENGTH then
        poke (a ++ (tok ++ b)) (a.length + COMMAND_ARGUMENT_LENGTH) NUL
      else a ++ (tok ++ b)) = a ++ (cutInPlace tok ++ b) := by
  rw [drop_at, strlen, cstr_word tok b ht hb]
  unfold cutInPlace
  split
  · rename_i h
    have hsplit : a ++ (tok ++ b) = (a ++ tok.take COMMAND_ARGUMENT_LENGTH)
        ++ (tok.drop COMMAND_ARGUMENT_LENGTH ++ b) := by
      rw [List.append_assoc, ← List.append_assoc (tok.take _), List.take_append_drop]
    have hlen : a.length + COMMAND_ARGUMENT_LENGTH
        = (a ++ tok.take COMMAND_ARGUMENT_LENGTH).length := by
      simp [List.length_append, List.length_take]; omega
    rw [hsplit, hlen, poke_at]
    have hd : (tok.drop COMMAND_ARGUMENT_LENGTH ++ b).drop 1
        = tok.drop (COMMAND_ARGUMENT_LENGTH + 1) ++ b := by
      rw [List.drop_append_of_le_length (by simp [List.length_drop]; omega), List.drop_drop]
    rw [hd]
    simp [List.append_assoc]
  · rfl

theorem words_nil : words [] = [] := by
  simp [words, List.splitOnP_nil]

theorem words_skip (skip x : List Char) (hs : ∀ c ∈ skip, isDelimiter c = true) :
    words (skip ++ x) = words x := by
  induction skip with
  | nil => rfl
  | cons c cs ih =>
    have hc : isDelimiter c = true := hs c (List.mem_cons_self _ _)
    have := ih (fun y hy => hs y (List.mem_cons_of_mem _ hy))
    unfold words at this ⊢
    rw [List.cons_append, List.splitOnP_cons, if_pos hc, List.filter_cons_of_neg (by simp)]
    exact this

theorem words_last (tok : List Char) (hne : tok ≠ []) (ht : ∀ c ∈ tok, isWordChar c = true) :
    words tok = [tok] := by
  unfold words
  rw [List.splitOnP_eq_single isDelimiter tok
    (fun c hc => by simp [isWordChar_not_delimiter (ht c hc)])]
  cases tok with
  | nil => exact absurd rfl hne
  | cons x xs => simp

theorem words_more (tok : List Char) (d : Char) (y : List Char) (hne : tok ≠ [])
    (ht : ∀ c ∈ tok, isWordChar c = true) (hd : isDelimiter d = true) :
    words (tok ++ d :: y) = tok :: words y := by
  unfold words
  rw [List.splitOnP_first isDelimiter tok
    (fun c hc => by simp [isWordChar_not_delimiter (ht c hc)]) d hd y]
  cases tok with
  | nil => exact absurd rfl hne
  | cons x xs => simp

theorem words_cstr_none (skip r1 : List Char) (hs : ∀ c ∈ skip, isDelimiter c = true)
    (h1 : r1.headD NUL = NUL) : words (cstr (skip ++ r1)) = [] := by
  rw [cstr_append skip r1 (fun c hc => isDelimiter_ne_NUL (hs c hc)), cstr_of_headD h1,
    words_skip skip [] hs, words_nil]

theorem words_cstr_last (skip tok r2 : List Char) (hs : ∀ c ∈ skip, isDelimiter c = true)
    (hne : tok ≠ []) (ht : ∀ c ∈ tok, isWordChar c = true) (h2 : r2.headD NUL = NUL) :
    words (cstr (skip ++ (tok ++ r2))) = [tok] := by
  rw [cstr_append skip _ (fun c hc => isDelimiter_ne_NUL (hs c hc)), cstr_word tok r2 ht h2,
    words_skip skip tok hs, words_last tok hne ht]

theorem words_cstr_more (skip tok : List Char) (d : Char) (r2 : List Char)
    (hs : ∀ c ∈ skip, isDelimiter c = true) (hne : tok ≠ [])
    (ht : ∀ c ∈ tok, isWordChar c = true) (hd : isDelimiter d = true) :
    words (cstr (skip ++ (tok ++ d :: r2))) = tok :: words (cstr r2) := by
  rw [cstr_append skip _ (fun c hc => isDelimiter_ne_NUL (hs c hc)),
    cstr_append tok _ (fun c hc => isWordChar_ne_NUL (ht c hc)), cstr_cons,
    if_neg (isDelimiter_ne_NUL hd), words_skip skip _ hs, words_more tok d _ hne ht hd]

theorem tokenizeLoop_done (n : Nat) (pre r : List Char) (args : List Nat)
    (h : r.headD NUL = NUL) :
    tokenizeLoop n (pre ++ r) none pre.length args = (pre ++ r, args) := by
  cases n with
  | zero => rfl
  | succ n =>
    have := strtok_r_none pre [] r none pre.length rfl (by simp) h
    simp only [List.nil_append] at this
    simp only [tokenizeLoop, this]

theorem cstrAt_at (a b : List Char) : cstrAt (a ++ b) a.length = cstr b := by
  unfold cstrAt
  rw [drop_at]

theorem cstrAt_ge (a b : List Char) (p : Nat) (hp : a.length ≤ p) :
    cstrAt (a ++ b) p = cstrAt b (p - a.length) := by
  unfold cstrAt
  rw [List.drop_append_eq_append_drop, List.drop_of_length_le hp, List.nil_append]

theorem tokenizeLoop_spec (n : Nat) : ∀ (pre rest : List Char) (source : Option Nat)
    (lasts : Nat) (args : List Nat), source.getD lasts = pre.length →
    ∃ rest' new, tokenizeLoop n (pre ++ rest) source lasts args = (pre ++ rest', args ++ new) ∧
      rest'.length = rest.length ∧ (∀ p ∈ new, pre.length ≤ p) ∧
      new.map (cstrAt (pre ++ rest'))
        = ((words (cstr rest)).take n).map (List.take COMMAND_ARGUMENT_LENGTH) := by
  induction n with
  | zero =>
    intro pre rest source lasts args _
    exact ⟨rest, [], by simp [tokenizeLoop], rfl, by simp, by simp⟩
  | succ n ih =>
    intro pre rest source lasts args hsrc
    rcases shape_total rest with ⟨skip, r1, rfl, hs, h1⟩ | ⟨skip, tok, r2, rfl, hs, hne, ht, h2⟩
      | ⟨skip, tok, d, r2, rfl, hs, hne, ht, hd⟩
    · refine ⟨skip ++ r1, [], ?_, rfl, by simp, ?_⟩
      · simp only [tokenizeLoop, strtok_r_none pre skip r1 source lasts hsrc hs h1,
          List.append_nil]
      · rw [words_cstr_none skip r1 hs h1]; simp
    · have hstep := strtok_r_word pre skip tok r2 source lasts hsrc hs hne ht
        (fun c hc => by rw [head?_of_headD h2 hc]; exact isWordChar_NUL)
      rw [if_pos h2] at hstep
      have htr := truncate_at (pre ++ skip) tok r2 ht h2
      simp only [List.length_append, List.append_assoc] at htr
      have hdone := tokenizeLoop_done n (pre ++ (skip ++ cutInPlace tok)) r2
        (args ++ [pre.length + skip.length]) h2
      have hlen : (pre ++ (skip ++ cutInPlace tok)).length
          = pre.length + skip.length + tok.length := by
        simp [List.length_append, cutInPlace_length, Nat.add_assoc]
      rw [hlen] at hdone
      refine ⟨skip ++ (cutInPlace tok ++ r2), [pre.length + skip.length], ?_, ?_, ?_, ?_⟩
      · simp only [tokenizeLoop, hstep, htr]
        simp only [List.append_assoc] at hdone ⊢
        exact hdone
      · simp [List.length_append, cutInPlace_length]
      · simp
      · rw [words_cstr_last skip tok r2 hs hne ht h2]
        have : cstrAt (pre ++ (skip ++ (cutInPlace tok ++ r2))) (pre.length + skip.length)
            = tok.take COMMAND_ARGUMENT_LENGTH := by
          rw [← List.append_assoc, ← List.length_append, cstrAt_at, cstr_cutInPlace tok r2 ht h2]
        simp [this]
    · have hdne : d ≠ NUL := isDelimiter_ne_NUL hd
      have hstep := strtok_r_word pre skip tok (d :: r2) source lasts hsrc hs hne ht
        (fun c hc => by
          simp at hc
          rw [← hc]; exact isDelimiter_not_wordChar hd)
      rw [if_neg (by simpa using hdne)] at hstep
      simp only [List.drop_succ_cons, List.drop_zero] at hstep
      have htr := truncate_at (pre ++ skip) tok (NUL :: r2) ht rfl
      simp only [List.length_append, List.append_assoc] at htr
      have hlen : (pre ++ (skip ++ (cutInPlace tok ++ [NUL]))).length
          = pre.length + skip.length + tok.length + 1 := by
        simp [List.length_append, cutInPlace_length, Nat.add_assoc]
      obtain ⟨rest2, new2, hrun, hlen2, hge, hmap⟩ :=
        ih (pre ++ (skip ++ (cutInPlace tok ++ [NUL]))) r2 none
          (pre.length + skip.length + tok.length + 1) (args ++ [pre.length + skip.length])
          (by simp [List.length_append, cutInPlace_length, Nat.add_assoc])
      have hmem : pre ++ (skip ++ (cutInPlace tok ++ [NUL])) ++ rest2
          = pre ++ (skip ++ (cutInPlace tok ++ NUL :: rest2)) := by
        simp [List.append_assoc]
      have hmem0 : pre ++ (skip ++ (cutInPlace tok ++ [NUL])) ++ r2
          = pre ++ (skip ++ (cutInPlace tok ++ NUL :: r2)) := by
        simp [List.append_assoc]
      rw [hmem, hmem0] at hrun
      rw [hmem] at hmap
      refine ⟨skip ++ (cutInPlace tok ++ NUL :: rest2), (pre.length + skip.length) :: new2,
        ?_, ?_, ?_, ?_⟩
      · simp only [tokenizeLoop, hstep, htr]
        rw [hrun]
        simp [List.append_assoc]
      · simp [List.length_append, cutInPlace_length, hlen2]
      · intro p hp
        rcases List.mem_cons.1 hp with rfl | hp
        · omega
        · have := hge p hp
          rw [hlen] at this
          omega
      · rw [words_cstr_more skip tok d r2 hs hne ht hd]
        have : cstrAt (pre ++ (skip ++ (cutInPlace tok ++ NUL :: rest2)))
            (pre.length + skip.length) = tok.take COMMAND_ARGUMENT_LENGTH := by
          rw [← List.append_assoc, ← List.length_append, cstrAt_at,
            cstr_cutInPlace tok (NUL :: rest2) ht rfl]
        simp only [List.map_cons, this, List.take_succ_cons, hmap]

theorem tokenizeLoop_tokens (n : Nat) (input : List Char) :
    (tokenizeLoop n input (some 0) 0 []).2.map (cstrAt (tokenizeLoop n input (some 0) 0 []).1)
      = ((words (cstr input)).take n).map (List.take COMMAND_ARGUMENT_LENGTH) := by
  obtain ⟨rest', new, hrun, _, _, hmap⟩ := tokenizeLoop_spec n [] input (some 0) 0 [] rfl
  simp only [List.nil_append] at hrun hmap
  rw [hrun]
  exact hmap

theorem matched_refused (pvPortMalloc : Nat → Bool) (commands : List CommandDefinition)
    (input output_buffer : List Char) (n : Nat) (d : CommandDefinition) (i : Nat)
    (h : pvPortMalloc (scratchSize d) = false) :
    matched pvPortMalloc commands input output_buffer n d i
      = { error := Error.ERROR_FreeRTOS_errCOULD_NOT_ALLOCATE_REQUIRED_MEMORY, input := input,
          output_buffer := output_buffer, invoked := [], requested := [scratchSize d],
          released := 0 } := by
  unfold scratchSize scratchCount at h
  simp only [matched, h, if_true]
  rfl

theorem matched_granted (pvPortMalloc : Nat → Bool) (commands : List CommandDefinition)
    (input output_buffer : List Char) (n : Nat) (d : CommandDefinition) (i : Nat)
    (h : pvPortMalloc (scratchSize d) = true) :
    matched pvPortMalloc commands input output_buffer n d i
      = { error := (invoke commands d.callback (handedTokens d input) output_buffer n).1,
          input := (tokenizeLoop (scratchCount d) input (some 0) 0 []).1,
          output_buffer := (invoke commands d.callback (handedTokens d input) output_buffer n).2,
          invoked := [(i, handedTokens d input)], requested := [scratchSize d],
          released := 1 } := by
  have h2 := h
  unfold scratchSize scratchCount at h2
  have ht := tokenizeLoop_tokens (scratchCount d) input
  unfold scratchCount at ht
  simp only [matched, h2, Bool.true_eq_false, if_false, ht]
  rfl

theorem commandProcessInput_none (pvPortMalloc : Nat → Bool) (commands : List CommandDefinition)
    (input output_buffer : List Char) (n : Nat) (h : ∀ d ∈ commands, ¬ NameMatches d input) :
    commandProcessInput pvPortMalloc commands input output_buffer n
      = notFound input (poke output_buffer 0 NUL) :=
  processLoop_none pvPortMalloc commands input _ n commands 0 h

theorem commandProcessInput_first (pvPortMalloc : Nat → Bool) (commands : List CommandDefinition)
    (input output_buffer : List Char) (n i : Nat) (d : CommandDefinition)
    (h : FirstMatch commands input i d) :
    commandProcessInput pvPortMalloc commands input output_buffer n
      = matched pvPortMalloc commands input (poke output_buffer 0 NUL) n d i := by
  obtain ⟨post, hsplit, hlen⟩ := firstMatch_split commands input i d h
  have := processLoop_first pvPortMalloc commands input (poke output_buffer 0 NUL) n
    (commands.take i) d post 0 h.2.2 h.2.1
  rw [← hsplit, hlen, Nat.zero_add] at this
  exact this

theorem firstMatch_exists (commands : List CommandDefinition) (input : List Char) :
    (∀ d ∈ commands, ¬ NameMatches d input) ∨ ∃ i d, FirstMatch commands input i d := by
  rcases firstMatch_or_none commands input with h | ⟨pre, d, post, rfl, hpre, hd⟩
  · exact Or.inl h
  · exact Or.inr ⟨pre.length, d, split_firstMatch pre d post input hpre hd⟩

theorem words_cstr_mem : ∀ (k : Nat) (rest : List Char), rest.length ≤ k →
    ∀ w ∈ words (cstr rest), w ≠ [] ∧ ∀ c ∈ w, isWordChar c = true := by
  intro k
  induction k with
  | zero =>
    intro rest hk w hw
    have : rest = [] := List.length_eq_zero.1 (Nat.le_zero.1 hk)
    subst this
    rw [cstr_nil, words_nil] at hw
    simp at hw
  | succ k ih =>
    intro rest hk w hw
    rcases shape_total rest with ⟨skip, r1, rfl, hs, h1⟩ | ⟨skip, tok, r2, rfl, hs, hne, ht, h2⟩
      | ⟨skip, tok, d, r2, rfl, hs, hne, ht, hd⟩
    · rw [words_cstr_none skip r1 hs h1] at hw
      simp at hw
    · rw [words_cstr_last skip tok r2 hs hne ht h2] at hw
      rw [List.mem_singleton.1 hw]
      exact ⟨hne, ht⟩
    · rw [words_cstr_more skip tok d r2 hs hne ht hd] at hw
      rcases List.mem_cons.1 hw with rfl | hw
      · exact ⟨hne, ht⟩
      · refine ih r2 ?_ w hw
        simp [List.length_append] at hk
        omega

/-! ## The dispatcher: matching, result codes, tokens -/

/-- C1: for every registry and every input line `commandProcessInput` calls the handler of at most
one definition, and a definition whose handler is called is the first one in registration order
whose name is a literal, character-by-character prefix of the input line: it stands at the
reported position, its name is a prefix of the line, and no definition before it has a name that
is a prefix of the line. -/
theorem dispatch_to_first_match (pvPortMalloc : Nat → Bool) (commands : List CommandDefinition)
    (input output_buffer : List Char) (n : Nat) :
    (commandProcessInput pvPortMalloc commands input output_buffer n).invoked.length ≤ 1 ∧
      ∀ c ∈ (commandProcessInput pvPortMalloc commands input output_buffer n).invoked,
        ∃ d, FirstMatch commands input c.1 d := by
  rcases firstMatch_exists commands input with h | ⟨i, d, h⟩
  · rw [commandProcessInput_none pvPortMalloc commands input output_buffer n h]
    simp [notFound]
  · rw [commandProcessInput_first pvPortMalloc commands input output_buffer n i d h]
    cases hg : pvPortMalloc (scratchSize d) with
    | false => rw [matched_refused _ _ _ _ _ _ _ hg]; simp
    | true =>
      rw [matched_granted _ _ _ _ _ _ _ hg]
      refine ⟨by simp, ?_⟩
      intro c hc
      rw [List.mem_singleton.1 hc]
      exact ⟨d, h⟩

/-- Tokens handed over when the increment of line 119 does not wrap.  For every input line and
every matched definition with declared maximum argument count `m` such that `m + 1` is
representable in `uint32_t`, the scratch allocation being granted, the token sequence handed to
the handler is the first `min (m + 1) w` of the `w` words of the line, the words being the
maximal runs of characters other than space, tab, carriage return and line feed in order of
appearance, each cut to its first `COMMAND_ARGUMENT_LENGTH` characters. -/
theorem tokens_handed_to_handler (pvPortMalloc : Nat → Bool) (commands : List CommandDefinition)
    (input output_buffer : List Char) (n i : Nat) (d : CommandDefinition)
    (hmatch : FirstMatch commands input i d) (hm : d.arguments_count_max + 1 < SIZE_MOD)
    (hgrant : pvPortMalloc (scratchSize d) = true) :
    (commandProcessInput pvPortMalloc commands input output_buffer n).invoked
      = [(i, expectedTokens d.arguments_count_max (cstr input))] := by
  rw [commandProcessInput_first pvPortMalloc commands input output_buffer n i d hmatch,
    matched_granted _ _ _ _ _ _ _ hgrant]
  have hcount : scratchCount d = d.arguments_count_max + 1 := Nat.mod_eq_of_lt hm
  have htake : (words (cstr input)).take
      (min (d.arguments_count_max + 1) (words (cstr input)).length)
      = (words (cstr input)).take (d.arguments_count_max + 1) := by
    rw [List.take_eq_take]
    simp
  simp only [handedTokens, expectedTokens, hcount, htake]

theorem tokens_handed_to_handler_witness :
    FirstMatch sampleCommands sampleInput 1 ledCommandDefinition ∧
      ledCommandDefinition.arguments_count_max + 1 < SIZE_MOD ∧
      (commandProcessInput (fun _ => true) sampleCommands sampleInput [] 16).invoked
        = [(1, expectedTokens ledCommandDefinition.arguments_count_max (cstr sampleInput))] ∧
      expectedTokens ledCommandDefinition.arguments_count_max (cstr sampleInput)
        = sampleTokens :=
  ⟨⟨rfl, by decide, by decide⟩, by decide,
    tokens_handed_to_handler (fun _ => true) sampleCommands sampleInput [] 16 1
      ledCommandDefinition ⟨rfl, by decide, by decide⟩ (by decide) rfl,
    by decide⟩

/-- C7: for every registry and every input line such that no registered name is a prefix of the
line, `commandProcessInput` returns `ERROR_COMMAND_NOT_FOUND`, calls no handler (and requests no
scratch storage), and leaves the output buffer holding the empty string. -/
theorem not_found_when_no_match (pvPortMalloc : Nat → Bool) (commands : List CommandDefinition)
    (input output_buffer : List Char) (n : Nat)
    (h : ∀ d ∈ commands, ¬ NameMatches d input) :
    (commandProcessInput pvPortMalloc commands input output_buffer n).error
        = Error.ERROR_COMMAND_NOT_FOUND ∧
      (commandProcessInput pvPortMalloc commands input output_buffer n).invoked = [] ∧
      (commandProcessInput pvPortMalloc commands input output_buffer n).requested = [] ∧
      (commandProcessInput pvPortMalloc commands input output_buffer n).output_buffer
        = NUL :: output_buffer.drop 1 ∧
      cstr (commandProcessInput pvPortMalloc commands input output_buffer n).output_buffer
        = [] := by
  rw [commandProcessInput_none pvPortMalloc commands input output_buffer n h]
  refine ⟨rfl, rfl, rfl, ?_, ?_⟩
  · simp [notFound, poke]
  · simp [notFound, poke, cstr_cons]

theorem not_found_when_no_match_witness :
    (∀ d ∈ sampleCommands, ¬ NameMatches d "nosuchcmd".toList) ∧
      (commandProcessInput (fun _ => true) sampleCommands "nosuchcmd".toList "old".toList
          16).error = Error.ERROR_COMMAND_NOT_FOUND ∧
      (commandProcessInput (fun _ => true) sampleCommands "nosuchcmd".toList "old".toList
          16).invoked = [] ∧
      (commandProcessInput (fun _ => true) sampleCommands "nosuchcmd".toList "old".toList
          16).requested = [] ∧
      (commandProcessInput (fun _ => true) sampleCommands "nosuchcmd".toList "old".toList
          16).output_buffer = NUL :: "old".toList.drop 1 ∧
      cstr (commandProcessInput (fun _ => true) sampleCommands "nosuchcmd".toList "old".toList
          16).output_buffer = [] :=
  ⟨by decide,
    not_found_when_no_match (fun _ => true) sampleCommands "nosuchcmd".toList "old".toList 16
      (by decide)⟩

/-- C8: for every input that matches a definition and for which the scratch allocation is
granted, exactly one handler call is made, to the matched definition, with the tokens of the
line; the result code of `commandProcessInput` is exactly the result code that this handler
returns on these tokens and the cleared output buffer, whatever handler it is and whatever code
it returns (success, a standard error or a handler-specific code), and the output buffer after
the call is the one a single run of the handler leaves. -/
theorem handler_result_passed_through (pvPortMalloc : Nat → Bool)
    (commands : List CommandDefinition) (input output_buffer : List Char) (n i : Nat)
    (d : CommandDefinition) (hmatch : FirstMatch commands input i d)
    (hgrant : pvPortMalloc (scratchSize d) = true) :
    (commandProcessInput pvPortMalloc commands input output_buffer n).invoked
        = [(i, handedTokens d input)] ∧
      (commandProcessInput pvPortMalloc commands input output_buffer n).error
        = (invoke commands d.callback (handedTokens d input) (poke output_buffer 0 NUL) n).1 ∧
      (∀ f : List (List Char) → List Char → Nat → Error × List Char,
        d.callback = Callback.user f →
        (commandProcessInput pvPortMalloc commands input output_buffer n).error
            = (f (handedTokens d input) (poke output_buffer 0 NUL) n).1 ∧
          (commandProcessInput pvPortMalloc commands input output_buffer n).output_buffer
            = (f (handedTokens d input) (poke output_buffer 0 NUL) n).2) ∧
      (d.callback = Callback.helpHandler →
        (commandProcessInput pvPortMalloc commands input output_buffer n).error
            = (_helpHandler commands (handedTokens d input) (poke output_buffer 0 NUL) n).1 ∧
          (commandProcessInput pvPortMalloc commands input output_buffer n).output_buffer
            = (_helpHandler commands (handedTokens d input) (poke output_buffer 0 NUL) n).2) := by
  rw [commandProcessInput_first pvPortMalloc commands input output_buffer n i d hmatch,
    matched_granted _ _ _ _ _ _ _ hgrant]
  refine ⟨rfl, rfl, ?_, ?_⟩
  · intro f hf
    rw [hf]
    exact ⟨rfl, rfl⟩
  · intro hh
    rw [hh]
    exact ⟨rfl, rfl⟩

theorem handler_result_passed_through_witness :
    FirstMatch sampleCommands "led on".toList 1 ledCommandDefinition ∧
      ((commandProcessInput (fun _ => true) sampleCommands "led on".toList [] 16).invoked
          = [(1, handedTokens ledCommandDefinition "led on".toList)] ∧
        (commandProcessInput (fun _ => true) sampleCommands "led on".toList [] 16).error
          = (invoke sampleCommands ledCommandDefinition.callback
              (handedTokens ledCommandDefinition "led on".toList) (poke [] 0 NUL) 16).1 ∧
        (∀ f : List (List Char) → List Char → Nat → Error × List Char,
          ledCommandDefinition.callback = Callback.user f →
          (commandProcessInput (fun _ => true) sampleCommands "led on".toList [] 16).error
              = (f (handedTokens ledCommandDefinition "led on".toList) (poke [] 0 NUL) 16).1 ∧
            (commandProcessInput (fun _ => true) sampleCommands "led on".toList []
                16).output_buffer
              = (f (handedTokens ledCommandDefinition "led on".toList) (poke [] 0 NUL)
                  16).2) ∧
        (ledCommandDefinition.callback = Callback.helpHandler →
          (commandProcessInput (fun _ => true) sampleCommands "led on".toList [] 16).error
              = (_helpHandler sampleCommands (handedTokens ledCommandDefinition "led on".toList)
                  (poke [] 0 NUL) 16).1 ∧
            (commandProcessInput (fun _ => true) sampleCommands "led on".toList []
                16).output_buffer
              = (_helpHandler sampleCommands (handedTokens ledCommandDefinition "led on".toList)
                  (poke [] 0 NUL) 16).2)) ∧
      (commandProcessInput (fun _ => true) sampleCommands "led on".toList [] 16).error
        = Error.other 7 ∧
      (commandProcessInput (fun _ => true) sampleCommands "led on".toList [] 16).invoked
        = [(1, ["led".toList, "on".toList])] ∧
      (commandProcessInput (fun _ => true)
          [_helpCommandDefinition, ledCommandDefinition, echoCommandDefinition]
          "echo hi  there you".toList "old".toList 16).error = Error.ERROR_BUFFER_OVERFLOW ∧
      (commandProcessInput (fun _ => true)
          [_helpCommandDefinition, ledCommandDefinition, echoCommandDefinition]
          "echo hi  there you".toList "old".toList 16).output_buffer = "echohithere".toList ∧
      (commandProcessInput (fun _ => true) sampleCommands "help".toList [] 64).error
        = Error.ERROR_NONE :=
  ⟨⟨rfl, by decide, by decide⟩,
    handler_result_passed_through (fun _ => true) sampleCommands "led on".toList [] 16 1
      ledCommandDefinition ⟨rfl, by decide, by decide⟩ rfl,
    by decide, by decide, by decide, by decide, by decide⟩

/-- C9: for every input that matches a definition, if the scratch allocation for the token array
is refused then `commandProcessInput` returns
`ERROR_FreeRTOS_errCOULD_NOT_ALLOCATE_REQUIRED_MEMORY`, calls no handler, tries no further
definition (the refused request is the only one made), and leaves the output buffer holding the
empty string. -/
theorem allocation_failure_aborts (pvPortMalloc : Nat → Bool) (commands : List CommandDefinition)
    (input output_buffer : List Char) (n i : Nat) (d : CommandDefinition)
    (hmatch : FirstMatch commands input i d) (hrefuse : pvPortMalloc (scratchSize d) = false) :
    (commandProcessInput pvPortMalloc commands input output_buffer n).error
        = Error.ERROR_FreeRTOS_errCOULD_NOT_ALLOCATE_REQUIRED_MEMORY ∧
      (commandProcessInput pvPortMalloc commands input output_buffer n).invoked = [] ∧
      (commandProcessInput pvPortMalloc commands input output_buffer n).requested
        = [scratchSize d] ∧
      (commandProcessInput pvPortMalloc commands input output_buffer n).output_buffer
        = NUL :: output_buffer.drop 1 ∧
      cstr (commandProcessInput pvPortMalloc commands input output_buffer n).output_buffer
        = [] := by
  rw [commandProcessInput_first pvPortMalloc commands input output_buffer n i d hmatch,
    matched_refused _ _ _ _ _ _ _ hrefuse]
  refine ⟨rfl, rfl, rfl, ?_, ?_⟩
  · simp [poke]
  · simp [poke, cstr_cons]

theorem allocation_failure_aborts_witness :
    FirstMatch (sampleCommands ++ sampleCommands) "led on".toList 1 ledCommandDefinition ∧
      (commandProcessInput (fun _ => false) (sampleCommands ++ sampleCommands) "led on".toList
          "old".toList 16).error = Error.ERROR_FreeRTOS_errCOULD_NOT_ALLOCATE_REQUIRED_MEMORY ∧
      (commandProcessInput (fun _ => false) (sampleCommands ++ sampleCommands) "led on".toList
          "old".toList 16).invoked = [] ∧
      (commandProcessInput (fun _ => false) (sampleCommands ++ sampleCommands) "led on".toList
          "old".toList 16).requested = [scratchSize ledCommandDefinition] ∧
      (commandProcessInput (fun _ => false) (sampleCommands ++ sampleCommands) "led on".toList
          "old".toList 16).output_buffer = NUL :: "old".toList.drop 1 ∧
      cstr (commandProcessInput (fun _ => false) (sampleCommands ++ sampleCommands)
          "led on".toList "old".toList 16).output_buffer = [] :=
  ⟨⟨rfl, by decide, by decide⟩,
    allocation_failure_aborts (fun _ => false) (sampleCommands ++ sampleCommands)
      "led on".toList "old".toList 16 1 ledCommandDefinition ⟨rfl, by decide, by decide⟩ rfl⟩

/-- C10: for every input line and matched definition, every token handed to the handler is
non-empty, contains none of the four delimiter characters (nor a terminator) and has length at
most `COMMAND_ARGUMENT_LENGTH`; the token at each position is the word of the line at that
position cut to its first `COMMAND_ARGUMENT_LENGTH` characters, so a longer word is handed over
as exactly its first `COMMAND_ARGUMENT_LENGTH` characters and cutting one token changes no later
token. -/
theorem tokens_well_formed (pvPortMalloc : Nat → Bool) (commands : List CommandDefinition)
    (input output_buffer : List Char) (n : Nat) :
    ∀ c ∈ (commandProcessInput pvPortMalloc commands input output_buffer n).invoked,
      (∀ t ∈ c.2, t ≠ [] ∧ (∀ ch ∈ t, isDelimiter ch = false ∧ ch ≠ NUL) ∧
          t.length ≤ COMMAND_ARGUMENT_LENGTH) ∧
        ∀ (k : Nat) (t : List Char), c.2[k]? = some t →
          ∃ w : List Char, (words (cstr input))[k]? = some w ∧
            t = w.take COMMAND_ARGUMENT_LENGTH ∧
            (COMMAND_ARGUMENT_LENGTH < w.length → t.length = COMMAND_ARGUMENT_LENGTH) := by
  intro c hc
  rcases firstMatch_exists commands input with h | ⟨i, d, h⟩
  · rw [commandProcessInput_none pvPortMalloc commands input output_buffer n h] at hc
    simp [notFound] at hc
  · rw [commandProcessInput_first pvPortMalloc commands input output_buffer n i d h] at hc
    cases hg : pvPortMalloc (scratchSize d) with
    | false =>
      rw [matched_refused _ _ _ _ _ _ _ hg] at hc
      simp at hc
    | true =>
      rw [matched_granted _ _ _ _ _ _ _ hg] at hc
      rw [List.mem_singleton.1 hc]
      have hk : ∀ (k : Nat) (t : List Char), (handedTokens d input)[k]? = some t →
          ∃ w : List Char, (words (cstr input))[k]? = some w ∧
            t = w.take COMMAND_ARGUMENT_LENGTH := by
        intro k t hkt
        unfold handedTokens at hkt
        rw [List.getElem?_map, Option.map_eq_some'] at hkt
        obtain ⟨w, hw, rfl⟩ := hkt
        rw [List.getElem?_take] at hw
        split at hw
        · exact ⟨w, hw, rfl⟩
        · exact Option.noConfusion hw
      refine ⟨?_, ?_⟩
      · intro t ht
        obtain ⟨k, hkt⟩ := List.mem_iff_getElem?.1 ht
        obtain ⟨w, hw, rfl⟩ := hk k t hkt
        obtain ⟨hne, hch⟩ := words_cstr_mem input.length input (Nat.le_refl _) w
          (List.mem_iff_getElem?.2 ⟨k, hw⟩)
        refine ⟨?_, ?_, ?_⟩
        · obtain ⟨x, xs, rfl⟩ := List.exists_cons_of_ne_nil hne
          simp [COMMAND_ARGUMENT_LENGTH]
        · intro ch hmem
          have := hch ch (List.mem_of_mem_take hmem)
          exact ⟨isWordChar_not_delimiter this, isWordChar_ne_NUL this⟩
        · simp [List.length_take]
      · intro k t hkt
        obtain ⟨w, hw, rfl⟩ := hk k t hkt
        refine ⟨w, hw, rfl, ?_⟩
        intro hlong
        simp [List.length_take]
        omega

theorem tokens_well_formed_witness :
    (1, sampleTokens) ∈ (commandProcessInput (fun _ => true) sampleCommands sampleInput []
        16).invoked ∧
      ((∀ t ∈ ((1, sampleTokens) : Nat × List (List Char)).2,
          t ≠ [] ∧ (∀ ch ∈ t, isDelimiter ch = false ∧ ch ≠ NUL) ∧
            t.length ≤ COMMAND_ARGUMENT_LENGTH) ∧
        ∀ (k : Nat) (t : List Char), ((1, sampleTokens) : Nat × List (List Char)).2[k]? = some t →
          ∃ w : List Char, (words (cstr sampleInput))[k]? = some w ∧
            t = w.take COMMAND_ARGUMENT_LENGTH ∧
            (COMMAND_ARGUMENT_LENGTH < w.length → t.length = COMMAND_ARGUMENT_LENGTH)) :=
  ⟨by decide,
    tokens_well_formed (fun _ => true) sampleCommands sampleInput [] 16 (1, sampleTokens)
      (by decide)⟩

/-! ## The help handler -/

theorem take_strlen (s : List Char) : s.take (strlen s) = cstr s := by
  induction s with
  | nil => rfl
  | cons c cs ih =>
    by_cases hc : c = NUL
    · simp [strlen, cstr_cons, hc]
    · have hl : strlen (c :: cs) = strlen cs + 1 := by simp [strlen, cstr_cons, hc]
      rw [hl, List.take_succ_cons, ih, cstr_cons, if_neg hc]

theorem helpLength_cons (d : CommandDefinition) (ds : List CommandDefinition) :
    helpLength (d :: ds) = strlen d.help_string + helpLength ds := by
  simp [helpLength, helpTexts, strlen]

theorem helpTexts_cons (d : CommandDefinition) (ds : List CommandDefinition) :
    (helpTexts (d :: ds)).flatten = cstr d.help_string ++ (helpTexts ds).flatten := by
  simp [helpTexts]

theorem strlen_le_helpLength (defs : List CommandDefinition) :
    ∀ d ∈ defs, strlen d.help_string ≤ helpLength defs := by
  induction defs with
  | nil => simp
  | cons a rest ih =>
    intro d hd
    rw [helpLength_cons]
    rcases List.mem_cons.1 hd with rfl | hd
    · omega
    · have := ih d hd
      omega

theorem size_minus_one (n : Nat) (hn : n < SIZE_MOD) (hpos : 1 ≤ n) :
    (n + SIZE_MOD - 1) % SIZE_MOD = n - 1 := by
  have : n + SIZE_MOD - 1 = (n - 1) + SIZE_MOD := by omega
  rw [this, Nat.add_mod_right, Nat.mod_eq_of_lt (by omega)]

theorem helpHandlerLoop_fits (n : Nat) (hn : n < SIZE_MOD) (hpos : 1 ≤ n) :
    ∀ (defs : List CommandDefinition) (out : List Char) (off : Nat), off ≤ out.length →
      (∀ d ∈ defs, strlen d.help_string ≤ n - 1) →
      _helpHandlerLoop n defs out off
        = (Error.ERROR_NONE,
            out.take off ++ ((helpTexts defs).flatten
              ++ NUL :: out.drop (off + helpLength defs + 1)),
            off + helpLength defs) := by
  intro defs
  induction defs with
  | nil =>
    intro out off _ _
    simp [_helpHandlerLoop, poke, helpTexts, helpLength]
  | cons d rest ih =>
    intro out off hoff hall
    have hd : ¬ (n + SIZE_MOD - 1) % SIZE_MOD < strlen d.help_string := by
      rw [size_minus_one n hn hpos]
      have := hall d (List.mem_cons_self _ _)
      omega
    have hlen : (out.take off ++ cstr d.help_string).length = off + strlen d.help_string := by
      simp [List.length_append, List.length_take, strlen, Nat.min_eq_left hoff]
    have hcopy : memcpy out off d.help_string (strlen d.help_string)
        = (out.take off ++ cstr d.help_string) ++ out.drop (off + strlen d.help_string) := by
      simp [memcpy, take_strlen]
    simp only [_helpHandlerLoop, hd, if_false]
    rw [hcopy, ih _ (off + strlen d.help_string)
      (by rw [List.length_append, hlen]; omega)
      (fun e he => hall e (List.mem_cons_of_mem _ he))]
    have htake : ((out.take off ++ cstr d.help_string)
        ++ out.drop (off + strlen d.help_string)).take (off + strlen d.help_string)
        = out.take off ++ cstr d.help_string := by
      rw [← hlen, List.take_left]
    have hdrop : ((out.take off ++ cstr d.help_string)
        ++ out.drop (off + strlen d.help_string)).drop
          (off + strlen d.help_string + helpLength rest + 1)
        = out.drop (off + helpLength (d :: rest) + 1) := by
      rw [Nat.add_assoc (off + strlen d.help_string), ← hlen, List.drop_append, List.drop_drop,
        hlen, helpLength_cons]
      congr 1
      omega
    rw [htake, hdrop, helpTexts_cons, helpLength_cons]
    simp [List.append_assoc, Nat.add_assoc]

/-- C5 (amended): for every registry, which starts with the built-in help definition, and every
output capacity `n` (a `size_t` value) that exceeds the total length of all registered help texts
by at least one, so that the terminator fits as well, `commandProcessInput` on the input `help`
returns `ERROR_NONE`, provided the scratch allocation is granted, and leaves at the start of the
output buffer exactly the concatenation of all help texts in registration order followed by a
terminator; the bytes behind the terminator are not touched. -/
theorem help_lists_all_texts (pvPortMalloc : Nat → Bool) (registered : List CommandDefinition)
    (output_buffer : List Char) (n : Nat) (hn : n < SIZE_MOD)
    (hfit : helpLength (_helpCommandDefinition :: registered) + 1 ≤ n)
    (hgrant : pvPortMalloc (scratchSize _helpCommandDefinition) = true) :
    (commandProcessInput pvPortMalloc (_helpCommandDefinition :: registered) "help".toList
        output_buffer n).error = Error.ERROR_NONE ∧
      (commandProcessInput pvPortMalloc (_helpCommandDefinition :: registered) "help".toList
        output_buffer n).output_buffer
        = (helpTexts (_helpCommandDefinition :: registered)).flatten
            ++ NUL :: output_buffer.drop
                (helpLength (_helpCommandDefinition :: registered) + 1) := by
  have hmatch : FirstMatch (_helpCommandDefinition :: registered) "help".toList 0
      _helpCommandDefinition := ⟨by simp, by decide, by simp⟩
  have hloop := helpHandlerLoop_fits n hn (by omega) (_helpCommandDefinition :: registered)
    (poke output_buffer 0 NUL) 0 (Nat.zero_le _)
    (fun d hd => by
      have := strlen_le_helpLength _ d hd
      omega)
  rw [commandProcessInput_first pvPortMalloc _ _ output_buffer n 0 _ hmatch,
    matched_granted _ _ _ _ _ _ _ hgrant]
  have hinv : invoke (_helpCommandDefinition :: registered) _helpCommandDefinition.callback
      (handedTokens _helpCommandDefinition "help".toList) (poke output_buffer 0 NUL) n
      = (Error.ERROR_NONE,
          (helpTexts (_helpCommandDefinition :: registered)).flatten
            ++ NUL :: output_buffer.drop
                (helpLength (_helpCommandDefinition :: registered) + 1)) := by
    have hcb : _helpCommandDefinition.callback = Callback.helpHandler := rfl
    rw [hcb]
    simp only [invoke, _helpHandler, hloop]
    simp [poke, Nat.add_comm]
  rw [hinv]
  exact ⟨rfl, rfl⟩

theorem help_lists_all_texts_witness :
    50 < SIZE_MOD ∧ helpLength (_helpCommandDefinition :: [ledCommandDefinition]) + 1 ≤ 50 ∧
      (commandProcessInput (fun _ => true) (_helpCommandDefinition :: [ledCommandDefinition])
          "help".toList "old".toList 50).error = Error.ERROR_NONE ∧
      (commandProcessInput (fun _ => true) (_helpCommandDefinition :: [ledCommandDefinition])
          "help".toList "old".toList 50).output_buffer
        = (helpTexts (_helpCommandDefinition :: [ledCommandDefinition])).flatten
            ++ NUL :: "old".toList.drop
                (helpLength (_helpCommandDefinition :: [ledCommandDefinition]) + 1) :=
  ⟨by decide, by decide,
    help_lists_all_texts (fun _ => true) [ledCommandDefinition] "old".toList 50 (by decide)
      (by decide) rfl⟩

/-- C5 as stated fails.  With the built-in definition alone the help texts are 36 bytes long; at
capacity 36, which is at least that length, the call returns `ERROR_BUFFER_OVERFLOW` and the
buffer holds the empty string.  And at capacity 100 the call returns the allocation failure code
when the scratch allocation is refused. -/
theorem help_exact_capacity_overflows :
    helpLength _commands = 36 ∧
      (commandProcessInput (fun _ => true) _commands "help".toList [] 36).error
        = Error.ERROR_BUFFER_OVERFLOW ∧
      (commandProcessInput (fun _ => true) _commands "help".toList [] 36).output_buffer
        = [NUL] ∧
      (commandProcessInput (fun _ => false) _commands "help".toList [] 100).error
        = Error.ERROR_FreeRTOS_errCOULD_NOT_ALLOCATE_REQUIRED_MEMORY := by
  decide

/-- C6 at a failing input.  The registry holds the built-in definition (help text of 36 bytes) and
the sample definition (13 bytes), 49 bytes in all.  With a buffer of 40 bytes, capacity 40, the
help handler compares every text with the whole capacity, returns `ERROR_NONE` and stores 50
bytes. -/
theorem help_overruns_output_buffer :
    strlen _helpCommandDefinition.help_string = 36 ∧ helpLength sampleCommands = 49 ∧
      (commandProcessInput (fun _ => true) sampleCommands "help".toList (List.replicate 40 'x')
          40).error = Error.ERROR_NONE ∧
      (commandProcessInput (fun _ => true) sampleCommands "help".toList (List.replicate 40 'x')
          40).output_buffer = (helpTexts sampleCommands).flatten ++ [NUL] ∧
      (commandProcessInput (fun _ => true) sampleCommands "help".toList (List.replicate 40 'x')
          40).output_buffer.length = 50 := by
  decide

/-! ## Key/value pairs -/

theorem lastOr_nil (v : Option (List Char)) : lastOr [] v = v := rfl

theorem lastOr_none (l : List (List Char)) : lastOr l none = l.getLast? := by
  unfold lastOr
  cases l.getLast? <;> rfl

theorem lastOr_cons (a : List Char) (l : List (List Char)) (v : Option (List Char)) :
    lastOr (a :: l) v = lastOr l (some a) := by
  unfold lastOr
  cases l with
  | nil => rfl
  | cons b bs =>
    rw [List.getLast?_cons_cons]
    have hne : (b :: bs).getLast? = some ((b :: bs).getLast (List.cons_ne_nil _ _)) :=
      List.getLast?_eq_getLast _ _
    rw [hne]

theorem setPair_at (a b : List CommandArgumentPair) (p : CommandArgumentPair) :
    setPair (a ++ b) a.length p = a ++ p :: b.drop 1 := by
  unfold setPair
  simp [List.take_left, List.drop_append]

theorem pairAt_at (a b : List CommandArgumentPair) (p : CommandArgumentPair) :
    pairAt (a ++ p :: b) a.length = p := by
  unfold pairAt
  rw [List.getD_eq_getElem?_getD, List.getElem?_append_right (Nat.le_refl _)]
  simp

theorem pairsLoop_current (P : Nat) : ∀ (rest : List (List Char))
    (pre : List CommandArgumentPair) (key : List Char) (v : Option (List Char))
    (post : List CommandArgumentPair) (found : Nat) (touched : List Nat),
    pre.length + 1 + (rest.filter isKeyArgument).length ≤ P →
    (pairsLoop P rest (pre ++ { key := some key, value := v } :: post) pre.length found
        touched).found = found + (rest.filter isKeyArgument).length ∧
      (pairsLoop P rest (pre ++ { key := some key, value := v } :: post) pre.length found
        touched).pairs.take (pre.length + 1 + (rest.filter isKeyArgument).length)
        = pre ++ { key := some key,
                   value := lastOr (rest.takeWhile (fun u => !isKeyArgument u)) v }
            :: expectedRaw rest := by
  intro rest
  induction rest with
  | nil =>
    intro pre key v post found touched _
    refine ⟨rfl, ?_⟩
    simp only [pairsLoop, List.filter_nil, List.length_nil, Nat.add_zero, List.takeWhile_nil,
      lastOr_nil, expectedRaw]
    have : pre ++ ({ key := some key, value := v } : CommandArgumentPair) :: post
        = (pre ++ [{ key := some key, value := v }]) ++ post := by simp
    rw [this, ← List.length_singleton ({ key := some key, value := v } : CommandArgumentPair),
      ← List.length_append, List.take_left]
  | cons a rest ih =>
    intro pre key v post found touched hP
    by_cases ha : isKeyArgument a = true
    · have hcount : ((a :: rest).filter isKeyArgument).length
          = (rest.filter isKeyArgument).length + 1 := by simp [List.filter_cons, ha]
      rw [hcount] at hP ⊢
      have hj : pre.length < P := by omega
      have hsplit : pre ++ ({ key := some key, value := v } : CommandArgumentPair) :: post
          = (pre ++ [{ key := some key, value := v }]) ++ post := by simp
      have hlen : pre.length + 1
          = (pre ++ [({ key := some key, value := v } : CommandArgumentPair)]).length := by simp
      have hset : setPair (pre ++ ({ key := some key, value := v } : CommandArgumentPair) :: post)
          (pre.length + 1) { key := some (a.drop 2), value := none }
          = (pre ++ [{ key := some key, value := v }])
              ++ { key := some (a.drop 2), value := none } :: post.drop 1 := by
        rw [hsplit, hlen, setPair_at]
      have := ih (pre ++ [{ key := some key, value := v }]) (a.drop 2) none (post.drop 1)
        (found + 1) (touched ++ [pre.length, pre.length + 1])
        (by rw [← hlen]; omega)
      rw [← hlen] at this
      simp only [pairsLoop, hj, if_true, ha, pairAt_at, ne_eq, reduceCtorEq, not_false_eq_true,
        hset]
      refine ⟨by rw [this.1]; omega, ?_⟩
      have htake : (a :: rest).takeWhile (fun u => !isKeyArgument u) = [] := by
        simp [List.takeWhile_cons, ha]
      rw [htake, lastOr_nil, expectedRaw, if_pos ha, ← lastOr_none]
      have h2 := this.2
      rw [show pre.length + 1 + ((rest.filter isKeyArgument).length + 1)
        = pre.length + 1 + 1 + (rest.filter isKeyArgument).length by omega, h2]
      simp
    · have hcount : ((a :: rest).filter isKeyArgument).length
          = (rest.filter isKeyArgument).length := by simp [List.filter_cons, ha]
      rw [hcount] at hP ⊢
      have hj : pre.length < P := by omega
      have hset : setPair (pre ++ ({ key := some key, value := v } : CommandArgumentPair) :: post)
          pre.length { key := some key, value := some a }
          = pre ++ { key := some key, value := some a } :: post := by
        rw [setPair_at]; simp
      have := ih pre key (some a) post found (touched ++ [pre.length]) hP
      simp only [pairsLoop, hj, if_true, ha, pairAt_at, hset, Bool.false_eq_true, if_false]
      refine ⟨this.1, ?_⟩
      have htake : (a :: rest).takeWhile (fun u => !isKeyArgument u)
          = a :: rest.takeWhile (fun u => !isKeyArgument u) := by
        simp [List.takeWhile_cons, ha]
      rw [htake, lastOr_cons, expectedRaw, if_neg ha]
      exact this.2

theorem pairsLoop_start (P : Nat) (hP : 1 ≤ P) : ∀ (rest : List (List Char))
    (v : Option (List Char)) (post : List CommandArgumentPair) (touched : List Nat),
    (rest.filter isKeyArgument).length ≤ P →
    (pairsLoop P rest ({ key := none, value := v } :: post) 0 0 touched).found
        = (rest.filter isKeyArgument).length ∧
      (pairsLoop P rest ({ key := none, value := v } :: post) 0 0 touched).pairs.take
          (rest.filter isKeyArgument).length = expectedRaw rest := by
  intro rest
  induction rest with
  | nil =>
    intro v post touched _
    exact ⟨rfl, by simp [pairsLoop, expectedRaw]⟩
  | cons a rest ih =>
    intro v post touched hkeys
    have hj : 0 < P := by omega
    have hat : pairAt (({ key := none, value := v } : CommandArgumentPair) :: post) 0
        = { key := none, value := v } := pairAt_at [] post _
    by_cases ha : isKeyArgument a = true
    · have hcount : ((a :: rest).filter isKeyArgument).length
          = (rest.filter isKeyArgument).length + 1 := by simp [List.filter_cons, ha]
      rw [hcount] at hkeys ⊢
      have hset : setPair (({ key := none, value := v } : CommandArgumentPair) :: post) 0
          { key := some (a.drop 2), value := none }
          = { key := some (a.drop 2), value := none } :: post := by
        simp [setPair]
      have := pairsLoop_current P rest [] (a.drop 2) none post 1 (touched ++ [0, 0])
        (by simp; omega)
      simp only [List.nil_append, List.length_nil, Nat.zero_add] at this
      simp only [pairsLoop, hj, if_true, ha, hat, ne_eq, not_true_eq_false, if_false, hset]
      refine ⟨by rw [this.1]; omega, ?_⟩
      rw [expectedRaw, if_pos ha, ← lastOr_none, Nat.add_comm, this.2]
    · have hcount : ((a :: rest).filter isKeyArgument).length
          = (rest.filter isKeyArgument).length := by simp [List.filter_cons, ha]
      rw [hcount] at hkeys ⊢
      have hset : setPair (({ key := none, value := v } : CommandArgumentPair) :: post) 0
          { key := none, value := some a } = { key := none, value := some a } :: post := by
        simp [setPair]
      have := ih (some a) post (touched ++ [0]) hkeys
      simp only [pairsLoop, hj, if_true, ha, hat, hset, Bool.false_eq_true, if_false]
      rw [expectedRaw, if_neg ha]
      exact this

theorem beq_hyphen (a : Char) : ('-' == a) = (a == '-') := by
  by_cases h : a = '-'
  · subst h; rfl
  · have h1 : (a == '-') = false := by simpa using h
    have h2 : ('-' == a) = false := by simpa using fun e : '-' = a => h e.symm
    rw [h1, h2]

theorem isKeyArgument_cstr (t : List Char) : isKeyArgument t = isKeyToken (cstr t) := by
  have hh : ('-' == NUL) = false := by decide
  have hh2 : (NUL == '-') = false := by decide
  rcases t with _ | ⟨a, _ | ⟨b, _ | ⟨c, r⟩⟩⟩
  · decide
  · by_cases ha : a = NUL <;>
      simp [isKeyArgument, isKeyToken, peek, cstr_cons, cstr_nil, List.isPrefixOf, ha, hh, hh2,
        beq_hyphen]
  · by_cases ha : a = NUL <;> by_cases hb : b = NUL <;>
      simp [isKeyArgument, isKeyToken, peek, cstr_cons, cstr_nil, List.isPrefixOf, ha, hb, hh,
        hh2, beq_hyphen]
  · by_cases ha : a = NUL <;> by_cases hb : b = NUL <;> by_cases hc : c = NUL <;>
      simp [isKeyArgument, isKeyToken, peek, cstr_cons, cstr_nil, List.isPrefixOf, ha, hb, hc,
        hh, hh2, beq_hyphen]

theorem cstr_drop_two (t : List Char) (h : isKeyArgument t = true) :
    cstr (t.drop 2) = (cstr t).drop 2 := by
  rcases t with _ | ⟨a, _ | ⟨b, r⟩⟩
  · rfl
  · simp [isKeyArgument, peek] at h
  · simp [isKeyArgument, peek] at h
    obtain ⟨⟨rfl, rfl⟩, _⟩ := h
    have : ('-' : Char) ≠ NUL := by decide
    simp [cstr_cons, this]

theorem isKeyToken_comp_cstr : (isKeyToken ∘ cstr) = isKeyArgument := by
  funext t
  exact (isKeyArgument_cstr t).symm

theorem keyCount_cstr (arguments : List (List Char)) :
    ((arguments.map cstr).filter isKeyToken).length = (arguments.filter isKeyArgument).length := by
  rw [List.filter_map, List.length_map, isKeyToken_comp_cstr]

theorem expectedRaw_strings (arguments : List (List Char)) :
    (expectedRaw arguments).map pairStrings = expectedPairs (arguments.map cstr) := by
  induction arguments with
  | nil => rfl
  | cons t ts ih =>
    have hnot : ((fun u => !isKeyToken u) ∘ cstr) = fun u => !isKeyArgument u := by
      funext u
      simp [isKeyArgument_cstr]
    by_cases ht : isKeyArgument t = true
    · have ht2 : isKeyToken (cstr t) = true := by rw [← isKeyArgument_cstr]; exact ht
      simp only [expectedRaw, ht, if_true, List.map_cons, expectedPairs, ht2, ih]
      congr 1
      simp only [pairStrings, Option.map_some', cstr_drop_two t ht, List.takeWhile_map, hnot,
        List.getLast?_map]
    · have ht2 : ¬ isKeyToken (cstr t) = true := by rw [← isKeyArgument_cstr]; exact ht
      simp only [expectedRaw, ht, if_false, List.map_cons, expectedPairs, ht2, ih,
        Bool.false_eq_true]

/-- C3: for every token sequence containing at most `P` key tokens, `P ≥ 1`, where a key token
is one that starts with two hyphens followed by at least one more character,
`commandArgumentsToPairs` returns the number of key tokens, and its first pairs, as many as it
returns, are one per key token in order: the key is the key token without its leading two
hyphens, the value is the last non-key token lying between this key token and the next key token
(or the end of the sequence), or null if there is none; non-key tokens before the first key
token contribute to no pair. -/
theorem pairs_follow_key_tokens (arguments_array : List (List Char))
    (pairs : List CommandArgumentPair) (P : Nat) (hP : 1 ≤ P)
    (hkeys : ((arguments_array.map cstr).filter isKeyToken).length ≤ P) :
    (commandArgumentsToPairs arguments_array arguments_array.length pairs P).found
        = ((arguments_array.map cstr).filter isKeyToken).length ∧
      ((commandArgumentsToPairs arguments_array arguments_array.length pairs P).pairs.take
          (commandArgumentsToPairs arguments_array arguments_array.length pairs P).found).map
          pairStrings = expectedPairs (arguments_array.map cstr) := by
  rw [keyCount_cstr] at hkeys ⊢
  have hinit : setPair pairs 0 { key := none, value := (pairAt pairs 0).value }
      = { key := none, value := (pairAt pairs 0).value } :: pairs.drop 1 := by
    simp [setPair]
  have := pairsLoop_start P hP arguments_array (pairAt pairs 0).value (pairs.drop 1) [0] hkeys
  simp only [commandArgumentsToPairs, List.take_length, hinit]
  rw [this.1, this.2, expectedRaw_strings]
  exact ⟨rfl, rfl⟩

theorem pairs_follow_key_tokens_witness :
    1 ≤ 2 ∧
      (((["--a", "1", "--b", "2"].map String.toList).map cstr).filter isKeyToken).length ≤ 2 ∧
      ((commandArgumentsToPairs (["--a", "1", "--b", "2"].map String.toList)
          (["--a", "1", "--b", "2"].map String.toList).length [] 2).found
        = (((["--a", "1", "--b", "2"].map String.toList).map cstr).filter isKeyToken).length ∧
      ((commandArgumentsToPairs (["--a", "1", "--b", "2"].map String.toList)
          (["--a", "1", "--b", "2"].map String.toList).length [] 2).pairs.take
          (commandArgumentsToPairs (["--a", "1", "--b", "2"].map String.toList)
            (["--a", "1", "--b", "2"].map String.toList).length [] 2).found).map pairStrings
        = expectedPairs ((["--a", "1", "--b", "2"].map String.toList).map cstr)) ∧
      commandArgumentsToPairs (["--a", "1", "--b", "2"].map String.toList) 4 [] 2
        = { found := 2,
            pairs := [{ key := some ['a'], value := some ['1'] },
              { key := some ['b'], value := some ['2'] }],
            touched := [0, 0, 0, 0, 0, 1, 1] } ∧
      (commandArgumentsToPairs (["v1", "--a", "v2"].map String.toList) 3 [] 2).found = 1 ∧
      (commandArgumentsToPairs (["v1", "--a", "v2"].map String.toList) 3 [] 2).pairs
        = [{ key := some ['a'], value := some ['v', '2'] }] ∧
      (commandArgumentsToPairs (["--a", "--b"].map String.toList) 2 [] 2).found = 2 ∧
      (commandArgumentsToPairs (["--a", "--b"].map String.toList) 2 [] 2).pairs
        = [{ key := some ['a'], value := none }, { key := some ['b'], value := none }] :=
  ⟨by decide, by decide,
    pairs_follow_key_tokens (["--a", "1", "--b", "2"].map String.toList) [] 2 (by decide)
      (by decide),
    by decide, by decide, by decide, by decide, by decide⟩

/-- C4 at a failing input: three key tokens and a pairs array of two slots.  The call returns 3,
one more than the capacity, and has stored a third pair into slot 2, behind the array. -/
theorem pairs_count_exceeds_capacity :
    (commandArgumentsToPairs (["--a", "--b", "--c"].map String.toList) 3
        [{ key := none, value := none }, { key := none, value := none }] 2).found = 3 ∧
      (commandArgumentsToPairs (["--a", "--b", "--c"].map String.toList) 3
        [{ key := none, value := none }, { key := none, value := none }] 2).pairs
        = [{ key := some ['a'], value := none }, { key := some ['b'], value := none },
            { key := some ['c'], value := none }] ∧
      2 ∈ (commandArgumentsToPairs (["--a", "--b", "--c"].map String.toList) 3
        [{ key := none, value := none }, { key := none, value := none }] 2).touched := by
  decide

/-! ## The registry -/

/-- C14: the registry starts as the one-element sequence holding the built-in help definition,
and `commandRegister` appends its argument at the end without removing, reordering or
deduplicating anything; hence after any sequence of registrations `ds` the registry is exactly
the built-in help definition followed by `ds`, with help first and duplicates kept. -/
theorem registry_is_help_then_registrations (ds : List CommandDefinition) :
    _commands = [_helpCommandDefinition] ∧
      (∀ (commands : List CommandDefinition) (d : CommandDefinition),
        commandRegister commands d = commands ++ [d]) ∧
      ds.foldl commandRegister _commands = _helpCommandDefinition :: ds ∧
      (ds.foldl commandRegister _commands).head? = some _helpCommandDefinition ∧
      (ds.foldl commandRegister _commands).length = ds.length + 1 := by
  have hfold : ∀ (l acc : List CommandDefinition), l.foldl commandRegister acc = acc ++ l := by
    intro l
    induction l with
    | nil => intro acc; simp
    | cons d rest ih =>
      intro acc
      rw [List.foldl_cons, ih, commandRegister]
      simp
  have h := hfold ds _commands
  refine ⟨rfl, fun _ _ => rfl, ?_, ?_, ?_⟩
  · rw [h]; rfl
  · rw [h]; rfl
  · rw [h]; simp [_commands, Nat.add_comm]

/-! ## Scratch storage and the input buffer -/

/-- C15: on every exit path of `commandProcessInput` the scratch storage it acquired has been
released: the number of granted requests equals the number of calls of `vPortFree`, so the count
of outstanding blocks after the call equals the count before it, whatever the handler is and
returns; and nothing is released when no name matched or when the request of the matched
definition was refused. -/
theorem scratch_storage_released (pvPortMalloc : Nat → Bool) (commands : List CommandDefinition)
    (input output_buffer : List Char) (n : Nat) :
    ((commandProcessInput pvPortMalloc commands input output_buffer n).requested.filter
        pvPortMalloc).length
        = (commandProcessInput pvPortMalloc commands input output_buffer n).released ∧
      (∀ before : Nat, outstandingAfter pvPortMalloc before
        (commandProcessInput pvPortMalloc commands input output_buffer n) = before) ∧
      ((∀ d ∈ commands, ¬ NameMatches d input) →
        (commandProcessInput pvPortMalloc commands input output_buffer n).released = 0) ∧
      (∀ (i : Nat) (d : CommandDefinition), FirstMatch commands input i d →
        pvPortMalloc (scratchSize d) = false →
        (commandProcessInput pvPortMalloc commands input output_buffer n).released = 0) := by
  have hbal : ((commandProcessInput pvPortMalloc commands input output_buffer n).requested.filter
        pvPortMalloc).length
        = (commandProcessInput pvPortMalloc commands input output_buffer n).released := by
    rcases firstMatch_exists commands input with h | ⟨i, d, h⟩
    · rw [commandProcessInput_none pvPortMalloc commands input output_buffer n h]
      rfl
    · rw [commandProcessInput_first pvPortMalloc commands input output_buffer n i d h]
      cases hg : pvPortMalloc (scratchSize d) with
      | false => rw [matched_refused _ _ _ _ _ _ _ hg]; simp [hg]
      | true => rw [matched_granted _ _ _ _ _ _ _ hg]; simp [hg]
  refine ⟨hbal, ?_, ?_, ?_⟩
  · intro before
    unfold outstandingAfter
    rw [hbal]
    omega
  · intro h
    rw [commandProcessInput_none pvPortMalloc commands input output_buffer n h]
    rfl
  · intro i d h hg
    rw [commandProcessInput_first pvPortMalloc commands input output_buffer n i d h,
      matched_refused _ _ _ _ _ _ _ hg]

/-- C19: for every registry and input line, when `commandProcessInput` returns because no
registered name is a prefix of the line, or because the scratch allocation for the matched
definition was refused, the input buffer is byte for byte what it was before the call. -/
theorem input_untouched_without_tokenization (pvPortMalloc : Nat → Bool)
    (commands : List CommandDefinition) (input output_buffer : List Char) (n : Nat)
    (h : (∀ d ∈ commands, ¬ NameMatches d input) ∨
      ∃ i d, FirstMatch commands input i d ∧ pvPortMalloc (scratchSize d) = false) :
    (commandProcessInput pvPortMalloc commands input output_buffer n).input = input := by
  rcases h with h | ⟨i, d, h, hg⟩
  · rw [commandProcessInput_none pvPortMalloc commands input output_buffer n h]
    rfl
  · rw [commandProcessInput_first pvPortMalloc commands input output_buffer n i d h,
      matched_refused _ _ _ _ _ _ _ hg]

theorem input_untouched_without_tokenization_witness :
    ((∀ d ∈ sampleCommands, ¬ NameMatches d "nosuch cmd".toList) ∨
        ∃ i d, FirstMatch sampleCommands "nosuch cmd".toList i d ∧
          (fun _ => true) (scratchSize d) = false) ∧
      (commandProcessInput (fun _ => true) sampleCommands "nosuch cmd".toList [] 16).input
        = "nosuch cmd".toList ∧
      ((∀ d ∈ sampleCommands, ¬ NameMatches d sampleInput) ∨
        ∃ i d, FirstMatch sampleCommands sampleInput i d ∧
          (fun _ => false) (scratchSize d) = false) ∧
      (commandProcessInput (fun _ => false) sampleCommands sampleInput [] 16).input
        = sampleInput ∧
      (commandProcessInput (fun _ => true) sampleCommands sampleInput [] 16).input
        ≠ sampleInput :=
  ⟨Or.inl (by decide),
    input_untouched_without_tokenization (fun _ => true) sampleCommands "nosuch cmd".toList []
      16 (Or.inl (by decide)),
    Or.inr ⟨1, ledCommandDefinition, ⟨rfl, by decide, by decide⟩, rfl⟩,
    input_untouched_without_tokenization (fun _ => false) sampleCommands sampleInput [] 16
      (Or.inr ⟨1, ledCommandDefinition, ⟨rfl, by decide, by decide⟩, rfl⟩),
    by decide⟩

/-! ## Bounds of the help handler and of the pairs array -/

/-- C11 at a failing input.  The registry holds the built-in definition and the sample
definition, 49 bytes of help texts; the buffer has 40 bytes and the capacity is 40.  The help
handler returns `ERROR_NONE` although 49 exceeds 40 - 1, and it has stored 49 bytes of text and a
terminator, 50 bytes in all. -/
theorem help_writes_more_than_capacity :
    _helpHandlerLoop 40 sampleCommands (List.replicate 40 'x') 0
        = (Error.ERROR_NONE, (helpTexts sampleCommands).flatten ++ [NUL], 49) ∧
      (_helpHandler sampleCommands [] (List.replicate 40 'x') 40).1 = Error.ERROR_NONE ∧
      (_helpHandler sampleCommands [] (List.replicate 40 'x') 40).2.length = 50 ∧
      40 - 1 < helpLength sampleCommands := by
  decide

/-- C18 at the failing input.  For capacity 0 the subtraction `output_buffer_length - 1` wraps to
`2 ^ 32 - 1`, every help text passes the comparison, and the help handler returns `ERROR_NONE`
after storing the 36 bytes of the built-in help text and a terminator. -/
theorem help_capacity_zero_wraps :
    (0 + SIZE_MOD - 1) % SIZE_MOD = 4294967295 ∧
      _helpHandler _commands [] [] 0
        = (Error.ERROR_NONE, (helpTexts _commands).flatten ++ [NUL]) ∧
      (_helpHandler _commands [] [] 0).2.length = 37 ∧
      (commandProcessInput (fun _ => true) _commands "help".toList [] 0).error
        = Error.ERROR_NONE ∧
      (commandProcessInput (fun _ => true) _commands "help".toList [] 0).output_buffer.length
        = 37 := by
  decide

/-- C13 at two failing inputs, each with a buffer of 40 bytes holding no terminator and
capacity 40.  With a second help text of 40 bytes the help handler copies the first text, returns
`ERROR_BUFFER_OVERFLOW` at the second and stores no terminator: the buffer holds the 36 bytes of
the first text and 4 old bytes.  With the sample registry it returns `ERROR_NONE` and its
terminator lies at offset 49, so the first 40 bytes hold no terminator either. -/
theorem help_leaves_buffer_unterminated :
    (commandProcessInput (fun _ => true) [_helpCommandDefinition, bigCommandDefinition]
        "help".toList (List.replicate 40 'x') 40).error = Error.ERROR_BUFFER_OVERFLOW ∧
      (commandProcessInput (fun _ => true) [_helpCommandDefinition, bigCommandDefinition]
        "help".toList (List.replicate 40 'x') 40).output_buffer
        = cstr _helpCommandDefinition.help_string ++ List.replicate 4 'x' ∧
      NUL ∉ (commandProcessInput (fun _ => true) [_helpCommandDefinition, bigCommandDefinition]
        "help".toList (List.replicate 40 'x') 40).output_buffer ∧
      (commandProcessInput (fun _ => true) sampleCommands "help".toList (List.replicate 40 'x')
        40).error = Error.ERROR_NONE ∧
      NUL ∉ (commandProcessInput (fun _ => true) sampleCommands "help".toList
        (List.replicate 40 'x') 40).output_buffer.take 40 := by
  decide

/-- C12 at two failing inputs.  With three key tokens and a pairs array of two slots the call
touches slot 2; with no token and a pairs array of no slots, capacity 0, it stores into
slot 0. -/
theorem pairs_touch_slot_behind_array :
    (commandArgumentsToPairs (["--a", "--b", "--c"].map String.toList) 3
        [{ key := none, value := none }, { key := none, value := none }] 2).touched
        = [0, 0, 0, 0, 1, 1, 2] ∧
      ¬ (∀ slot ∈ (commandArgumentsToPairs (["--a", "--b", "--c"].map String.toList) 3
        [{ key := none, value := none }, { key := none, value := none }] 2).touched, slot < 2) ∧
      (commandArgumentsToPairs [] 0 [] 0).touched = [0] ∧
      (commandArgumentsToPairs [] 0 [] 0).pairs = [{ key := none, value := none }] ∧
      ¬ (∀ slot ∈ (commandArgumentsToPairs [] 0 [] 0).touched, slot < 0) := by
  decide

/-! ## Shadowing and the command-name token -/

theorem invoked_cases (pvPortMalloc : Nat → Bool) (commands : List CommandDefinition)
    (input output_buffer : List Char) (n : Nat) :
    (commandProcessInput pvPortMalloc commands input output_buffer n).invoked = [] ∨
      ∃ i d, FirstMatch commands input i d ∧ pvPortMalloc (scratchSize d) = true ∧
        (commandProcessInput pvPortMalloc commands input output_buffer n).invoked
          = [(i, handedTokens d input)] := by
  rcases firstMatch_exists commands input with h | ⟨i, d, h⟩
  · left
    rw [commandProcessInput_none pvPortMalloc commands input output_buffer n h]
    rfl
  · rw [commandProcessInput_first pvPortMalloc commands input output_buffer n i d h]
    cases hg : pvPortMalloc (scratchSize d) with
    | false => left; rw [matched_refused _ _ _ _ _ _ _ hg]
    | true => right; exact ⟨i, d, h, hg, by rw [matched_granted _ _ _ _ _ _ _ hg]⟩

theorem firstMatch_unique (commands : List CommandDefinition) (input : List Char) (i k : Nat)
    (d e : CommandDefinition) (hi : FirstMatch commands input i d)
    (hk : commands[k]? = some e) (hke : NameMatches e input) : i ≤ k := by
  by_contra hlt
  have hmem : e ∈ commands.take i := by
    refine List.mem_iff_getElem?.2 ⟨k, ?_⟩
    rw [List.getElem?_take, if_pos (by omega)]
    exact hk
  exact hi.2.2 e hmem hke

/-- C17: for every registry and every two entries, the first registered before the second, such
that the name of the first is a prefix of the name of the second, no input line makes
`commandProcessInput` call the handler of the second; in particular, the built-in help definition
being first, no registered definition whose name begins with `help` is ever dispatched to, and
for every input line beginning with `help` the built-in help definition is the one matched, every
handler call goes to it, and its handler is called whenever the scratch allocation is granted. -/
theorem earlier_prefix_shadows (commands : List CommandDefinition) :
    (∀ (j k : Nat) (d1 d2 : CommandDefinition), commands[j]? = some d1 →
        commands[k]? = some d2 → j < k → cstr d1.command <+: cstr d2.command →
        ∀ (pvPortMalloc : Nat → Bool) (input output_buffer : List Char) (n : Nat),
          ∀ c ∈ (commandProcessInput pvPortMalloc commands input output_buffer n).invoked,
            c.1 ≠ k) ∧
      (∀ (registered : List CommandDefinition) (k : Nat) (d2 : CommandDefinition),
        (_helpCommandDefinition :: registered)[k]? = some d2 → 0 < k →
        "help".toList <+: cstr d2.command →
        ∀ (pvPortMalloc : Nat → Bool) (input output_buffer : List Char) (n : Nat),
          ∀ c ∈ (commandProcessInput pvPortMalloc (_helpCommandDefinition :: registered) input
              output_buffer n).invoked, c.1 ≠ k) ∧
      (∀ (registered : List CommandDefinition) (pvPortMalloc : Nat → Bool)
        (input output_buffer : List Char) (n : Nat), "help".toList <+: cstr input →
        FirstMatch (_helpCommandDefinition :: registered) input 0 _helpCommandDefinition ∧
          (∀ c ∈ (commandProcessInput pvPortMalloc (_helpCommandDefinition :: registered) input
              output_buffer n).invoked, c.1 = 0) ∧
          (pvPortMalloc (scratchSize _helpCommandDefinition) = true →
            ∃ tokens, (commandProcessInput pvPortMalloc (_helpCommandDefinition :: registered)
              input output_buffer n).invoked = [(0, tokens)])) := by
  have general : ∀ (cmds : List CommandDefinition) (j k : Nat) (d1 d2 : CommandDefinition),
      cmds[j]? = some d1 → cmds[k]? = some d2 → j < k →
      cstr d1.command <+: cstr d2.command →
      ∀ (pvPortMalloc : Nat → Bool) (input output_buffer : List Char) (n : Nat),
        ∀ c ∈ (commandProcessInput pvPortMalloc cmds input output_buffer n).invoked,
          c.1 ≠ k := by
    intro cmds j k d1 d2 h1 h2 hjk hp pvPortMalloc input output_buffer n c hc
    rcases invoked_cases pvPortMalloc cmds input output_buffer n with h | ⟨i, d, hfm, _, hinv⟩
    · rw [h] at hc; simp at hc
    · rw [hinv] at hc
      rw [List.mem_singleton.1 hc]
      intro hik
      simp only at hik
      subst hik
      have hd : d = d2 := by
        have := hfm.1
        rw [h2] at this
        exact (Option.some.inj this).symm
      subst hd
      have h1m : NameMatches d1 input := List.IsPrefix.trans hp hfm.2.1
      have := firstMatch_unique cmds input i j d d1 hfm h1 h1m
      omega
  have hhelp : cstr _helpCommandDefinition.command = "help".toList := by decide
  refine ⟨general commands, ?_, ?_⟩
  · intro registered k d2 hk hpos hp
    exact general (_helpCommandDefinition :: registered) 0 k _helpCommandDefinition d2
      (by simp) hk hpos (by rw [hhelp]; exact hp)
  · intro registered pvPortMalloc input output_buffer n hp
    have hfm : FirstMatch (_helpCommandDefinition :: registered) input 0
        _helpCommandDefinition :=
      ⟨by simp, by unfold NameMatches; rw [hhelp]; exact hp, by simp⟩
    rw [commandProcessInput_first pvPortMalloc _ input output_buffer n 0 _ hfm]
    refine ⟨hfm, ?_, ?_⟩
    · intro c hc
      cases hg : pvPortMalloc (scratchSize _helpCommandDefinition) with
      | false =>
        rw [matched_refused _ _ _ _ _ _ _ hg] at hc
        simp at hc
      | true =>
        rw [matched_granted _ _ _ _ _ _ _ hg] at hc
        rw [List.mem_singleton.1 hc]
    · intro hg
      rw [matched_granted _ _ _ _ _ _ _ hg]
      exact ⟨_, rfl⟩

theorem earlier_prefix_shadows_witness :
    (∀ c ∈ (commandProcessInput (fun _ => true)
        [_helpCommandDefinition, helpmeCommandDefinition] "helpme now".toList [] 16).invoked,
        c.1 ≠ 1) ∧
      (commandProcessInput (fun _ => true) [_helpCommandDefinition, helpmeCommandDefinition]
        "helpme now".toList [] 16).invoked = [(0, ["helpme".toList])] :=
  ⟨(earlier_prefix_shadows [_helpCommandDefinition, helpmeCommandDefinition]).1 0 1
      _helpCommandDefinition helpmeCommandDefinition rfl rfl (by decide) (by decide)
      (fun _ => true) "helpme now".toList [] 16,
    by decide⟩

theorem cstr_ne_NUL (s : List Char) : ∀ c ∈ cstr s, c ≠ NUL := by
  intro c hc
  have := List.mem_takeWhile_imp hc
  simpa using this

theorem prefix_within (name a b : List Char) (h : name <+: a ++ b)
    (hb : ∀ d, b.head? = some d → d ∉ name) : name <+: a := by
  by_cases hle : name.length ≤ a.length
  · exact List.prefix_of_prefix_length_le h (List.prefix_append a b) hle
  · cases b with
    | nil => simpa using h
    | cons d y =>
      have hpre : a ++ [d] <+: a ++ d :: y := by
        rw [List.prefix_append_right_inj]
        exact List.cons_prefix_cons.2 ⟨rfl, List.nil_prefix⟩
      have := List.prefix_of_prefix_length_le hpre h (by simp; omega)
      exact absurd (this.mem (by simp)) (hb d rfl)

theorem first_word_has_name (name input : List Char) (hne : name ≠ [])
    (hnodelim : ∀ c ∈ name, isDelimiter c = false) (hp : name <+: cstr input) :
    ∃ w rest, words (cstr input) = w :: rest ∧ name <+: w := by
  obtain ⟨x, xs, rfl⟩ := List.exists_cons_of_ne_nil hne
  have hx : isDelimiter x = false := hnodelim x (List.mem_cons_self _ _)
  have noskip : ∀ (skip t : List Char), (∀ c ∈ skip, isDelimiter c = true) →
      x :: xs <+: skip ++ t → skip = [] := by
    intro skip t hs hpre
    cases skip with
    | nil => rfl
    | cons y ys =>
      rw [List.cons_append, List.cons_prefix_cons] at hpre
      have := hs y (List.mem_cons_self _ _)
      rw [← hpre.1, hx] at this
      exact Bool.noConfusion this
  rcases shape_total input with ⟨skip, r1, rfl, hs, h1⟩ | ⟨skip, tok, r2, rfl, hs, hne2, ht, h2⟩
    | ⟨skip, tok, d, r2, rfl, hs, hne2, ht, hd⟩
  · rw [cstr_append skip r1 (fun c hc => isDelimiter_ne_NUL (hs c hc)), cstr_of_headD h1] at hp
    have := noskip skip [] hs hp
    subst this
    simp at hp
  · have hw := words_cstr_last skip tok r2 hs hne2 ht h2
    rw [cstr_append skip _ (fun c hc => isDelimiter_ne_NUL (hs c hc)), cstr_word tok r2 ht h2]
      at hp
    have := noskip skip tok hs hp
    subst this
    exact ⟨tok, [], hw, by simpa using hp⟩
  · have hw := words_cstr_more skip tok d r2 hs hne2 ht hd
    rw [cstr_append skip _ (fun c hc => isDelimiter_ne_NUL (hs c hc)),
      cstr_append tok _ (fun c hc => isWordChar_ne_NUL (ht c hc)), cstr_cons,
      if_neg (isDelimiter_ne_NUL hd)] at hp
    have := noskip skip _ hs hp
    subst this
    rw [List.nil_append] at hp
    refine ⟨tok, _, hw, prefix_within _ tok _ hp ?_⟩
    intro e he hmem
    simp at he
    subst he
    have := hnodelim d hmem
    rw [hd] at this
    exact Bool.noConfusion this

/-- The command-name token when the increment of line 119 does not wrap.  For every input that
matches a definition whose name is non-empty and contains no delimiter character, with
`maxArguments + 1` representable in `uint32_t` and the scratch allocation granted, the handler
receives between 1 and `maxArguments + 1` tokens, and token 0 is the first word of the input
line cut to `COMMAND_ARGUMENT_LENGTH` characters, which has the command name cut to
`COMMAND_ARGUMENT_LENGTH` characters as a prefix. -/
theorem command_name_token_first (pvPortMalloc : Nat → Bool) (commands : List CommandDefinition)
    (input output_buffer : List Char) (n i : Nat) (d : CommandDefinition)
    (hmatch : FirstMatch commands input i d) (hname : cstr d.command ≠ [])
    (hnodelim : ∀ c ∈ cstr d.command, isDelimiter c = false)
    (hm : d.arguments_count_max + 1 < SIZE_MOD)
    (hgrant : pvPortMalloc (scratchSize d) = true) :
    ∃ (tokens : List (List Char)) (first : List Char),
      (commandProcessInput pvPortMalloc commands input output_buffer n).invoked
        = [(i, tokens)] ∧
      1 ≤ tokens.length ∧ tokens.length ≤ d.arguments_count_max + 1 ∧
      (words (cstr input)).head? = some first ∧
      tokens.head? = some (first.take COMMAND_ARGUMENT_LENGTH) ∧
      (cstr d.command).take COMMAND_ARGUMENT_LENGTH <+: first.take COMMAND_ARGUMENT_LENGTH := by
  obtain ⟨w, rest, hw, hpre⟩ := first_word_has_name (cstr d.command) input hname hnodelim
    hmatch.2.1
  have hcount : scratchCount d = d.arguments_count_max + 1 := Nat.mod_eq_of_lt hm
  refine ⟨handedTokens d input, w, ?_, ?_, ?_, ?_, ?_, ?_⟩
  · rw [commandProcessInput_first pvPortMalloc commands input output_buffer n i d hmatch,
      matched_granted _ _ _ _ _ _ _ hgrant]
  · simp [handedTokens, hcount, hw, List.length_take]
  · simp [handedTokens, hcount, List.length_take]
  · rw [hw]; rfl
  · simp [handedTokens, hcount, hw, List.take_succ_cons]
  · rw [List.prefix_take_iff]
    exact ⟨(List.take_prefix _ _).trans hpre, by simp [List.length_take]⟩

theorem command_name_token_first_witness :
    FirstMatch sampleCommands sampleInput 1 ledCommandDefinition ∧
      cstr ledCommandDefinition.command ≠ [] ∧
      (∀ c ∈ cstr ledCommandDefinition.command, isDelimiter c = false) ∧
      ledCommandDefinition.arguments_count_max + 1 < SIZE_MOD ∧
      ∃ (tokens : List (List Char)) (first : List Char),
        (commandProcessInput (fun _ => true) sampleCommands sampleInput [] 16).invoked
          = [(1, tokens)] ∧
        1 ≤ tokens.length ∧ tokens.length ≤ ledCommandDefinition.arguments_count_max + 1 ∧
        (words (cstr sampleInput)).head? = some first ∧
        tokens.head? = some (first.take COMMAND_ARGUMENT_LENGTH) ∧
        (cstr ledCommandDefinition.command).take COMMAND_ARGUMENT_LENGTH
          <+: first.take COMMAND_ARGUMENT_LENGTH :=
  ⟨⟨rfl, by decide, by decide⟩, by decide, by decide, by decide,
    command_name_token_first (fun _ => true) sampleCommands sampleInput [] 16 1
      ledCommandDefinition ⟨rfl, by decide, by decide⟩ (by decide) (by decide) (by decide) rfl⟩

/-! ## The wrap of the token count -/

/-- C2 at a failing input.  The definition `w` declares 4294967295 arguments, so the `uint32_t`
sum `arguments_count_max + 1` of the source is 0 and the request is for 0 bytes.  On the line
`w a b` the handler is called with no token at all, where the first `min (m + 1) w` words are the
three words of the line. -/
theorem tokens_lost_when_count_wraps :
    FirstMatch [_helpCommandDefinition, wideCommandDefinition] "w a b".toList 1
        wideCommandDefinition ∧
      (wideCommandDefinition.arguments_count_max + 1) % SIZE_MOD = 0 ∧
      (commandProcessInput (fun _ => true) [_helpCommandDefinition, wideCommandDefinition]
        "w a b".toList [] 16).requested = [0] ∧
      (commandProcessInput (fun _ => true) [_helpCommandDefinition, wideCommandDefinition]
        "w a b".toList [] 16).invoked = [(1, [])] ∧
      expectedTokens wideCommandDefinition.arguments_count_max (cstr "w a b".toList)
        = ["w".toList, "a".toList, "b".toList] :=
  ⟨⟨rfl, by decide, by decide⟩, by decide, by decide, by decide, by decide⟩

/-- C16 at a failing input.  The name `w` is non-empty and free of delimiters and is the first
word of the line `w a b`, yet the handler of the definition declaring 4294967295 arguments
receives a token count of 0, which it returns as its code: slot 0 does not carry the
command-name token. -/
theorem command_name_token_lost_when_count_wraps :
    cstr wideCommandDefinition.command ≠ [] ∧
      (∀ c ∈ cstr wideCommandDefinition.command, isDelimiter c = false) ∧
      NameMatches wideCommandDefinition "w a b".toList ∧
      (words (cstr "w a b".toList)).head? = some "w".toList ∧
      (commandProcessInput (fun _ => true) [_helpCommandDefinition, wideCommandDefinition]
        "w a b".toList [] 16).invoked.map (fun c => c.2.length) = [0] ∧
      (commandProcessInput (fun _ => true) [_helpCommandDefinition, wideCommandDefinition]
        "w a b".toList [] 16).invoked.map (fun c => c.2.head?) = [none] ∧
      (commandProcessInput (fun _ => true) [_helpCommandDefinition, wideCommandDefinition]
        "w a b".toList [] 16).error = Error.other 0 := by
  decide

end Command
